import Mathlib

/-!
Verification development for the Gene Expression Programming chromosome core
(`src/Chromosome.py`).  The Python source is shallowly embedded: trees are an
inductive type, the class-level configuration is an explicit record, mutation
is explicit state passing, Python exceptions are an error type threaded through
`Except`, and the two genuinely recursive procedures whose Python originals can
exhaust the interpreter stack (`link_recursive`) or whose loop structure is
imperative (`build_tree`) are written with an explicit recursion budget that
mirrors CPython's recursion limit; budget exhaustion is modelled as the
`recLimit` error, and for the inputs the theorems speak about the budget is
shown (or chosen) large enough that it never fires.
-/

namespace GEP

/-- Python exception kinds that the embedded code can raise.  `recLimit`
stands for `RecursionError` (a recursion budget models CPython's stack). -/
inductive PyErr where
  | zeroDiv    -- ZeroDivisionError
  | typeErr    -- TypeError
  | keyErr     -- KeyError
  | indexErr   -- IndexError
  | valueErr   -- ValueError
  | recLimit   -- RecursionError / recursion budget exhausted
deriving DecidableEq, Repr

instance {ε α : Type} [DecidableEq ε] [DecidableEq α] : DecidableEq (Except ε α) :=
  fun x y =>
  match x, y with
  | .ok a, .ok b =>
    if h : a = b then .isTrue (by rw [h]) else .isFalse (by simp [h])
  | .error e, .error f =>
    if h : e = f then .isTrue (by rw [h]) else .isFalse (by simp [h])
  | .ok _, .error _ => .isFalse (by simp)
  | .error _, .ok _ => .isFalse (by simp)

/-- Values flowing through evaluation: finite reals are modelled exactly as
rationals; the IEEE specials `nan`, `inf`, `-inf` are distinguished atoms;
`cpx` marks a complex (non-real) result; `pynone` is Python's `None`
(returned by `inorder` when a symbol is neither terminal nor function). -/
inductive V where
  | fin : ℚ → V
  | nan
  | inf
  | ninf
  | cpx
  | pynone
deriving DecidableEq, Repr

/-- Expression-tree node: a symbol with an ordered list of children
(`anytree.Node` with the parent back-references left implicit; the arena model
used for the frame-effect claim makes them explicit). -/
inductive Tree where
  | node : Char → List Tree → Tree

/-- Root symbol of a tree. -/
def Tree.name : Tree → Char
  | .node c _ => c

/-- Children of a tree's root. -/
def Tree.kids : Tree → List Tree
  | .node _ ts => ts

/-- One registered function: its arity (`"args"`) and its callable (`"f"`).
The callable may raise (e.g. `ZeroDivisionError`), hence `Except`. -/
structure FuncDef where
  args : Nat
  f : List V → Except PyErr V

/-- The class-level configuration shared by all chromosomes
(`Chromosome.functions`, `terminals`, `constants`, ...).  Mappings are
association lists so that emptiness tests (`if not Chromosome.functions`)
are expressible. -/
structure Config where
  functions : List (Char × FuncDef)
  terminals : List Char
  constants : List (Char × V)
  ephemeral_random_constants_range : Option (ℚ × ℚ)
  linking_function : Option Char
  num_genes : Nat
  head_length : Option Nat
  length : Option Nat
  fitness_cases : List (List (Char × ℚ) × ℚ)

/-- Association-list lookup, used for all the Python `dict` accesses. -/
def alookup {α : Type} : List (Char × α) → Char → Option α
  | [], _ => none
  | (k, v) :: r, c => if k = c then some v else alookup r c

/-- `args(f)`: the arity of a symbol, `0` when it is not a registered
function (`Chromosome.functions[f]["args"] if f in Chromosome.functions
else 0`). -/
def argsOf (cfg : Config) (c : Char) : Nat :=
  match alookup cfg.functions c with
  | some fd => fd.args
  | none => 0

/-- `sum([args(f) for f in lvl])`. -/
def aritySum (cfg : Config) (lvl : List Char) : Nat :=
  (lvl.map (argsOf cfg)).sum

/-- The level-construction loop of `build_tree`: starting from the last level
built so far and the count of gene symbols consumed, repeatedly slice the next
`aritySum last` symbols off the gene (`gene[index+1 : index+1+nargs]`).  The
loop runs while `index < len(gene)` and the last level still contains a
function symbol; `fuel` bounds the number of iterations (each iteration
consumes at least one gene symbol, so `gene.length` iterations always
suffice, see `levelsLoop_fuel`). -/
def levelsLoop (cfg : Config) (gene : List Char) : Nat → List Char → Nat → List (List Char)
  | 0, _, _ => []
  | fuel + 1, last, index =>
    if index < gene.length ∧ aritySum cfg last ≠ 0 then
      let nargs := aritySum cfg last
      let nxt := (gene.drop (index + 1)).take nargs
      nxt :: levelsLoop cfg gene fuel nxt (index + nargs)
    else []

/-- All levels of a (non-empty) gene, level 0 (`[gene[0]]`) included. -/
def mkLevels (cfg : Config) (g0 : Char) (gene : List Char) : List (List Char) :=
  [g0] :: levelsLoop cfg gene gene.length [g0] 0

/-- In-place update `levels[i] = levels[i][n:]` used by `grab_children`.
(The Python indexing is guarded, so the out-of-range case is unreachable;
it is modelled as the identity.) -/
def updLevel : List (List Char) → Nat → Nat → List (List Char)
  | [], _, _ => []
  | l :: r, 0, n => l.drop n :: r
  | l :: r, i + 1, n => l :: updLevel r i n

mutual
/-- `grab_children(parent, current_level)`: returns the ordered children
(sub)trees of a node named `name` whose children live at `levels[cl]`, together
with the levels list after the destructive slicing the Python code performs.
State is the whole `levels` list (absolute indexing, as in the source).  `fuel`
is the recursion budget. -/
def grabChildren (cfg : Config) : Nat → Char → Nat → List (List Char) →
    Except PyErr (List Tree × List (List Char))
  | 0, _, _, _ => .error .recLimit
  | fuel + 1, name, cl, levels =>
    if cl < levels.length then
      grabLoop cfg fuel cl levels (argsOf cfg name) 0
    else
      .ok ([], levels)

/-- The `for i in range(nargs)` loop inside `grab_children`: `todo` children
remain to be grabbed, the next one sits at `levels[cl][i]`.  After the
recursive grab for a child, `levels[cl+1]` is sliced by the child's arity
(guarded by `cl < len(levels) - 1`, exactly as in the source). -/
def grabLoop (cfg : Config) : Nat → Nat → List (List Char) → Nat → Nat →
    Except PyErr (List Tree × List (List Char))
  | 0, _, _, _, _ => .error .recLimit
  | _ + 1, _, levels, 0, _ => .ok ([], levels)
  | fuel + 1, cl, levels, todo + 1, i =>
    match levels.get? cl with
    | none => .error .indexErr
    | some l =>
      match l.get? i with
      | none => .error .indexErr
      | some c =>
        match grabChildren cfg fuel c (cl + 1) levels with
        | .error e => .error e
        | .ok (kids, levels1) =>
          let levels2 :=
            if cl < levels1.length - 1 then updLevel levels1 (cl + 1) (argsOf cfg c)
            else levels1
          match grabLoop cfg fuel cl levels2 todo (i + 1) with
          | .error e => .error e
          | .ok (rest, levels3) => .ok (Tree.node c kids :: rest, levels3)
end

/-- Recursion budget sufficient for `grabChildren` on a given levels list:
one unit per symbol plus one per level (established by the main
decoding lemma). -/
def wt : List (List Char) → Nat
  | [] => 0
  | l :: r => l.length + 1 + wt r

/-- `Chromosome.build_tree(gene)`.  The empty gene raises `IndexError` at
`gene[0]`; otherwise the levels are built and the tree is parsed from them.
Index errors inside `grab_children` (possible for genes whose levels are
incomplete) surface as `IndexError` as well. -/
def build_tree (cfg : Config) (gene : List Char) : Except PyErr Tree :=
  match gene with
  | [] => .error .indexErr
  | g0 :: _ =>
    let levels := mkLevels cfg g0 gene
    match grabChildren cfg (wt levels) g0 1 levels with
    | .error e => .error e
    | .ok (kids, _) => .ok (Tree.node g0 kids)

/-! ### Specification-side decoding relation (claim C1)

The spec's breadth-first arity-driven rule: each node at level `k`, processed
left to right, receives as its children the next `arity(node)` not-yet-assigned
symbols of level `k+1`, in order.  Because levels are consumed left to right,
the "next not-yet-assigned" position of a node sitting at position `pos` of its
level is the total arity of the symbols before it, `aritySum (l.take pos)`;
the relation below expresses the rule with that closed form. -/

mutual
/-- `SpecNode cfg rest s off t`: `t` is the spec-decoded subtree of a node
with symbol `s` whose (potential) children occupy the level `rest.head`
starting at offset `off`, with the deeper levels `rest.tail` below.  A node
with no level below it is a leaf. -/
inductive SpecNode (cfg : Config) : List (List Char) → Char → Nat → Tree → Prop where
  | bottom : ∀ s off, SpecNode cfg [] s off (Tree.node s [])
  | deep : ∀ l rest s off kids,
      SpecRow cfg l rest off (argsOf cfg s) kids →
      SpecNode cfg (l :: rest) s off (Tree.node s kids)

/-- `SpecRow cfg l rest pos cnt ts`: `ts` are the spec-decoded subtrees of the
`cnt` consecutive symbols of level `l` starting at position `pos`; a child at
position `p` gets its own children from the next level at offset
`aritySum (l.take p)` (the symbols already assigned to its left). -/
inductive SpecRow (cfg : Config) : List Char → List (List Char) → Nat → Nat → List Tree → Prop where
  | nil : ∀ l rest pos, SpecRow cfg l rest pos 0 []
  | cons : ∀ l rest pos cnt c t ts,
      l.get? pos = some c →
      SpecNode cfg rest c (aritySum cfg (l.take pos)) t →
      SpecRow cfg l rest (pos + 1) cnt ts →
      SpecRow cfg l rest pos (cnt + 1) (t :: ts)
end

/-- A levels list is complete when each level after the first has exactly the
total arity of the previous level, i.e. the gene never ran out of symbols
while a level was being sliced. -/
def completeB (cfg : Config) : List (List Char) → Bool
  | [] => true
  | [_] => true
  | l :: l2 :: r => decide (l2.length = aritySum cfg l) && completeB cfg (l2 :: r)

/-- The canonical stripped state of a levels suffix: the head level has had
its first `off` symbols consumed, and the consumption cascades downward
(`off` consumed symbols of one level account for `aritySum (take off)`
consumed symbols of the next). -/
def stripSuffix (cfg : Config) : List (List Char) → Nat → List (List Char)
  | [], _ => []
  | l :: rest, off => l.drop off :: stripSuffix cfg rest (aritySum cfg (l.take off))

/-- The levels state left behind by `grab_children` for a node whose children
started at offset `off` of `rest.head` and whose arity is `n`: the node's own
level keeps its entry point, the level below has additionally consumed the
`n` children, cascading. -/
def postG (cfg : Config) (P rest : List (List Char)) (off n : Nat) :
    List (List Char) :=
  match rest with
  | [] => P
  | l :: rest2 =>
    P ++ (l.drop off :: stripSuffix cfg rest2 (aritySum cfg (l.take (off + n))))

/-! ### Tree linking (`Chromosome.link`) -/

/-- `link_recursive(*args)`: with exactly `nargs` trees, make a fresh root with
them as its ordered children; otherwise link the first `nargs` trees and
recurse on the combined tree together with the rest.  The Python original
recurses unboundedly (e.g. for `len(args) < nargs`); `fuel` is the recursion
budget and `none` models `RecursionError`. -/
def linkRec (sym : Char) (nargs : Nat) : Nat → List Tree → Option Tree
  | 0, _ => none
  | fuel + 1, args =>
    if args.length = nargs then some (Tree.node sym args)
    else
      match linkRec sym nargs fuel (args.take nargs) with
      | none => none
      | some t => linkRec sym nargs fuel (t :: args.drop nargs)

/-- `Chromosome.link(*args)`: checks that the linking function is registered
(`ValueError` otherwise; a `None` linking function is likewise not a key of
`functions`), then runs `link_recursive`.  The `isinstance(arg, Node)` check
of the source is vacuous here since every argument is a `Tree`.  The budget
`args.length + 2` suffices whenever the Python recursion terminates (arity
at least 2); budget exhaustion models `RecursionError`. -/
def link (cfg : Config) (args : List Tree) : Except PyErr Tree :=
  match cfg.linking_function with
  | none => .error .valueErr
  | some lf =>
    match alookup cfg.functions lf with
    | none => .error .valueErr
    | some fd =>
      match linkRec lf fd.args (args.length + 2) args with
      | some t => .ok t
      | none => .error .recLimit

/-! ### Chromosome state and evaluation -/

/-- A chromosome instance: `genes`, the lazily built `trees`, the
memoization dictionary `_values_` (an association list keyed by the binding
fingerprint), `_fitness_`, and the ephemeral random constants drawn at
construction time. -/
structure Chromosome where
  genes : List (List Char)
  trees : List Tree
  values : List (List (Char × ℚ) × V)
  fitness : Option V
  ephemeral_random_constants : List ℚ

/-- Observable work done by one `evaluate` call: whether the gene trees were
(re)built, whether linking ran, and how many registered function callables
were applied.  This instruments the embedding the way the spec's "call counter
on a fake callable function" instruments the Python. -/
structure EvalWork where
  built : Bool
  linked : Bool
  apps : Nat
deriving DecidableEq, Repr

/-- Insertion by key into a key-sorted association list. -/
def insertByKey (p : Char × ℚ) : List (Char × ℚ) → List (Char × ℚ)
  | [] => [p]
  | q :: qs => if p.1 ≤ q.1 then p :: q :: qs else q :: insertByKey p qs

/-- `tuple(sorted(terminal_values.items()))`: the binding fingerprint.
Dictionary keys are distinct, so sorting by key matches Python's tuple
ordering. -/
def sortKeys : List (Char × ℚ) → List (Char × ℚ)
  | [] => []
  | p :: ps => insertByKey p (sortKeys ps)

/-- Lookup in the memoization dictionary by fingerprint. -/
def vlookup : List (List (Char × ℚ) × V) → List (Char × ℚ) → Option V
  | [], _ => none
  | (k, v) :: r, fp => if k = fp then some v else vlookup r fp

/-- Python's `str.isdigit` for the single-character symbols used here. -/
def isDig (c : Char) : Bool := '0' ≤ c && c ≤ '9'

/-- `int(name)` for a digit symbol. -/
def digitVal (c : Char) : ℚ := mkRat ((c.toNat : Int) - ('0'.toNat : Int)) 1

mutual
/-- The recursive `inorder` traversal inside `evaluate`: resolves a terminal
(ephemeral constant, registered constant, digit literal, bound variable, in
that order) or applies a function callable to the evaluated children.  Returns
the value, the updated ephemeral-constant cursor (`erc_index`), and the number
of callable applications.  A symbol that is neither terminal nor function
falls through and yields Python's `None`.  `fuel` is the recursion budget
(CPython's stack). -/
def inorder (cfg : Config) (ercs : List ℚ) (tv : List (Char × ℚ)) :
    Nat → Tree → Nat → Except PyErr (V × Nat × Nat)
  | 0, _, _ => .error .recLimit
  | fuel + 1, Tree.node nm ch, idx =>
    if nm ∈ cfg.terminals then
      if nm = '?' then
        match ercs.get? idx with
        | some q => .ok (V.fin q, idx + 1, 0)
        | none => .error .indexErr
      else
        match alookup cfg.constants nm with
        | some v => .ok (v, idx, 0)
        | none =>
          if isDig nm then .ok (V.fin (digitVal nm), idx, 0)
          else
            match alookup tv nm with
            | some q => .ok (V.fin q, idx, 0)
            | none => .error .keyErr
    else
      match alookup cfg.functions nm with
      | some fd =>
        match inorderKids cfg ercs tv fuel ch idx with
        | .error e => .error e
        | .ok (vs, idx2, apps) =>
          match fd.f vs with
          | .error e => .error e
          | .ok v => .ok (v, idx2, apps + 1)
      | none => .ok (V.pynone, idx, 0)

/-- The list comprehension `[inorder(node) for node in start.children]`:
children are evaluated left to right, the cursor threads through, and the
first exception aborts the rest. -/
def inorderKids (cfg : Config) (ercs : List ℚ) (tv : List (Char × ℚ)) :
    Nat → List Tree → Nat → Except PyErr (List V × Nat × Nat)
  | 0, _, _ => .error .recLimit
  | _ + 1, [], idx => .ok ([], idx, 0)
  | fuel + 1, t :: ts, idx =>
    match inorder cfg ercs tv fuel t idx with
    | .error e => .error e
    | .ok (v, idx1, a1) =>
      match inorderKids cfg ercs tv fuel ts idx1 with
      | .error e => .error e
      | .ok (vs, idx2, a2) => .ok (v :: vs, idx2, a1 + a2)
end

/-- The `try/except` tail of `evaluate`: a successful reduction is stored
under the fingerprint (a complex result raises `TypeError`, which the handler
turns into `nan`, so the net stored value is `nan`); `ZeroDivisionError` and
`TypeError` store and return `nan`; any other exception propagates without
touching the cache. -/
def settle (fp : List (Char × ℚ)) (c : Chromosome) (w : EvalWork)
    (r : Except PyErr (V × Nat × Nat)) : Chromosome × EvalWork × Except PyErr V :=
  match r with
  | .ok (v, _, apps) =>
    let v2 := if v = V.cpx then V.nan else v
    ({ c with values := (fp, v2) :: c.values }, { w with apps := apps }, .ok v2)
  | .error .zeroDiv => ({ c with values := (fp, V.nan) :: c.values }, w, .ok V.nan)
  | .error .typeErr => ({ c with values := (fp, V.nan) :: c.values }, w, .ok V.nan)
  | .error e => (c, w, .error e)

/-- `[Chromosome.build_tree(gene) for gene in self.genes]`. -/
def buildTrees (cfg : Config) : List (List Char) → Except PyErr (List Tree)
  | [] => .ok []
  | g :: gs =>
    match build_tree cfg g with
    | .error e => .error e
    | .ok t =>
      match buildTrees cfg gs with
      | .error e => .error e
      | .ok ts => .ok (t :: ts)

/-- Recursion budget handed to `inorder`, modelling CPython's default
recursion limit. -/
def pyStack : Nat := 1000

/-- `Chromosome.evaluate(terminal_values)`.  Memoizes by the sorted binding
fingerprint; on a miss, builds the gene trees if not already built, links them
when the chromosome is multigenic (`self.trees[0]` raises `IndexError` when
there are no trees), resets the ephemeral-constant cursor to `0`, runs
`inorder`, and settles the result.  The chromosome state is returned alongside
so that the partial mutations Python performs before an uncaught exception
(trees already built) are preserved. -/
def evaluate (cfg : Config) (c : Chromosome) (tv : List (Char × ℚ)) :
    Chromosome × EvalWork × Except PyErr V :=
  let fp := sortKeys tv
  match vlookup c.values fp with
  | some v => (c, ⟨false, false, 0⟩, .ok v)
  | none =>
    let needBuild := c.trees.isEmpty
    match (if needBuild then buildTrees cfg c.genes else .ok c.trees) with
    | .error e => (c, ⟨false, false, 0⟩, .error e)
    | .ok trees =>
      let c1 := { c with trees := trees }
      let w : EvalWork := ⟨needBuild, cfg.num_genes > 1, 0⟩
      match (if cfg.num_genes > 1 then link cfg trees
             else match trees.head? with
                  | some t => .ok t
                  | none => .error .indexErr) with
      | .error e => (c1, w, .error e)
      | .ok et =>
        settle fp c1 w (inorder cfg c1.ephemeral_random_constants tv pyStack et 0)

/-- `Chromosome.__init__(genes)`: the configuration guards, in source order
(each failure is a `ValueError`, except that spreading a `None` ephemeral
range into `np.random.uniform` is a `TypeError`).  `sample` stands for the
value of `np.random.uniform(lo, hi, size=length)`: the theorems that need its
contract (length `length`, entries within the range) take it as a
hypothesis. -/
def init (cfg : Config) (genes : List (List Char)) (sample : List ℚ) :
    Except PyErr Chromosome :=
  if cfg.functions.isEmpty then .error .valueErr
  else if cfg.terminals.length = 0 then .error .valueErr
  else if cfg.length = none then .error .valueErr
  else if cfg.head_length = none then .error .valueErr
  else if cfg.linking_function = none ∧ genes.length > 1 then .error .valueErr
  else if genes.length ≠ cfg.num_genes then .error .valueErr
  else if '?' ∈ cfg.terminals ∧ cfg.ephemeral_random_constants_range = none then
    .error .valueErr
  else if cfg.ephemeral_random_constants_range = none then .error .typeErr
  else .ok { genes := genes, trees := [], values := [], fitness := none,
             ephemeral_random_constants := sample }

/-! ### Specification-side ephemeral-constant consumption (claim C4)

Reformulation of the claim's words "each `'?'` terminal consumes the next
unused value in order": the traversal carries the list of still-unused
constants and takes from its front.  The theorem for C4 relates this to the
cursor-based `inorder` of the source. -/

mutual
/-- Stream-consuming variant of `inorder`: identical resolution order, but the
ephemeral constants are consumed from the front of an explicit list of unused
values. -/
def inorderS (cfg : Config) (tv : List (Char × ℚ)) :
    Nat → Tree → List ℚ → Except PyErr (V × List ℚ × Nat)
  | 0, _, _ => .error .recLimit
  | fuel + 1, Tree.node nm ch, unused =>
    if nm ∈ cfg.terminals then
      if nm = '?' then
        match unused with
        | q :: qs => .ok (V.fin q, qs, 0)
        | [] => .error .indexErr
      else
        match alookup cfg.constants nm with
        | some v => .ok (v, unused, 0)
        | none =>
          if isDig nm then .ok (V.fin (digitVal nm), unused, 0)
          else
            match alookup tv nm with
            | some q => .ok (V.fin q, unused, 0)
            | none => .error .keyErr
    else
      match alookup cfg.functions nm with
      | some fd =>
        match inorderSKids cfg tv fuel ch unused with
        | .error e => .error e
        | .ok (vs, unused2, apps) =>
          match fd.f vs with
          | .error e => .error e
          | .ok v => .ok (v, unused2, apps + 1)
      | none => .ok (V.pynone, unused, 0)

/-- Children traversal for `inorderS`. -/
def inorderSKids (cfg : Config) (tv : List (Char × ℚ)) :
    Nat → List Tree → List ℚ → Except PyErr (List V × List ℚ × Nat)
  | 0, _, _ => .error .recLimit
  | _ + 1, [], unused => .ok ([], unused, 0)
  | fuel + 1, t :: ts, unused =>
    match inorderS cfg tv fuel t unused with
    | .error e => .error e
    | .ok (v, unused1, a1) =>
      match inorderSKids cfg tv fuel ts unused1 with
      | .error e => .error e
      | .ok (vs, unused2, a2) => .ok (v :: vs, unused2, a1 + a2)
end

/-! ### Float arithmetic for the fitness scorers

Finite values are exact rationals; the IEEE specials follow the rules the
scorers can actually exercise (sums of finite values, `1 + inf`,
`1.0 / (1 + inf)`).  Combinations the embedded scorers never produce are
mapped to `nan`.  The rational operations are spelled through `mkRat` (the
lemmas `qadd_eq` etc. identify them with the field operations of `ℚ`) so that
concrete runs reduce. -/

/-- Exact rational addition through `mkRat`. -/
def qadd (a b : ℚ) : ℚ := mkRat (a.num * b.den + b.num * a.den) (a.den * b.den)

/-- Exact rational subtraction through `mkRat`. -/
def qsub (a b : ℚ) : ℚ := mkRat (a.num * b.den - b.num * a.den) (a.den * b.den)

/-- Exact rational multiplication through `mkRat`. -/
def qmul (a b : ℚ) : ℚ := mkRat (a.num * b.num) (a.den * b.den)

/-- Exact rational division through `mkRat`. -/
def qdiv (a b : ℚ) : ℚ := mkRat (a.num * b.den * b.num.sign) (a.den * b.num.natAbs)

/-- Exact rational absolute value through `mkRat`. -/
def qabs (a : ℚ) : ℚ := mkRat |a.num| a.den

/-- Float addition. -/
def Vadd : V → V → V
  | V.fin a, V.fin b => V.fin (qadd a b)
  | V.fin _, V.inf => V.inf
  | V.inf, V.fin _ => V.inf
  | V.inf, V.inf => V.inf
  | V.fin _, V.ninf => V.ninf
  | V.ninf, V.fin _ => V.ninf
  | V.ninf, V.ninf => V.ninf
  | _, _ => V.nan

/-- Float subtraction. -/
def Vsub : V → V → V
  | V.fin a, V.fin b => V.fin (qsub a b)
  | V.fin _, V.ninf => V.inf
  | V.inf, V.fin _ => V.inf
  | V.fin _, V.inf => V.ninf
  | V.ninf, V.fin _ => V.ninf
  | _, _ => V.nan

/-- Float multiplication (used only for squaring a finite difference). -/
def Vmul : V → V → V
  | V.fin a, V.fin b => V.fin (qmul a b)
  | _, _ => V.nan

/-- Float absolute value. -/
def Vabs : V → V
  | V.fin a => V.fin (qabs a)
  | V.inf => V.inf
  | V.ninf => V.inf
  | _ => V.nan

/-- Float division; dividing finite by exact zero is `ZeroDivisionError`,
dividing finite by an infinity yields zero. -/
def Vdiv : V → V → Except PyErr V
  | V.fin a, V.fin b => if b = 0 then .error .zeroDiv else .ok (V.fin (qdiv a b))
  | V.fin _, V.inf => .ok (V.fin 0)
  | V.fin _, V.ninf => .ok (V.fin 0)
  | _, _ => .ok V.nan

/-- The scorers' guard
`type(C) == np.complex or np.isnan(C) or np.isinf(C) or np.isneginf(C)`:
true on a complex, `nan` or infinite value, false on a finite one;
`np.isnan(None)` raises `TypeError`. -/
def badV : V → Except PyErr Bool
  | V.cpx => .ok true
  | V.nan => .ok true
  | V.inf => .ok true
  | V.ninf => .ok true
  | V.fin _ => .ok false
  | V.pynone => .error .typeErr

/-! ### Fitness scorers -/

/-- The per-case loop of `Chromosome.absolute_fitness`: evaluate the case
bindings, zero the accumulator and stop on a bad value, otherwise add
`M - abs(C - T)`. -/
def absCases (cfg : Config) (M : ℚ) :
    Chromosome → V → List (List (Char × ℚ) × ℚ) → Except PyErr (V × Chromosome)
  | c, acc, [] => .ok (acc, c)
  | c, acc, (b, t) :: rest =>
    match evaluate cfg c b with
    | (_, _, .error e) => .error e
    | (c1, _, .ok v) =>
      match badV v with
      | .error e => .error e
      | .ok true => .ok (V.fin 0, c1)
      | .ok false =>
        absCases cfg M c1 (Vadd acc (Vsub (V.fin M) (Vabs (Vsub v (V.fin t))))) rest

/-- `Chromosome.absolute_fitness(M, *args)`: per chromosome, return the cached
fitness if present, otherwise run the case loop from `0`, store the result
and return it.  Returns the fitness list together with the mutated
chromosomes. -/
def absolute_fitness (cfg : Config) (M : ℚ) :
    List Chromosome → Except PyErr (List V × List Chromosome)
  | [] => .ok ([], [])
  | c :: cs =>
    match c.fitness with
    | some f =>
      match absolute_fitness cfg M cs with
      | .error e => .error e
      | .ok (fs, cs2) => .ok (f :: fs, c :: cs2)
    | none =>
      match absCases cfg M c (V.fin 0) cfg.fitness_cases with
      | .error e => .error e
      | .ok (fit, c1) =>
        match absolute_fitness cfg M cs with
        | .error e => .error e
        | .ok (fs, cs2) => .ok (fit :: fs, { c1 with fitness := some fit } :: cs2)

/-- The per-case loop of `Chromosome.inv_squared_error`: evaluate the case
bindings, force the accumulator to infinity and stop on a bad value,
otherwise add `(C - T)**2`. -/
def iseCases (cfg : Config) :
    Chromosome → V → List (List (Char × ℚ) × ℚ) → Except PyErr (V × Chromosome)
  | c, acc, [] => .ok (acc, c)
  | c, acc, (b, t) :: rest =>
    match evaluate cfg c b with
    | (_, _, .error e) => .error e
    | (c1, _, .ok v) =>
      match badV v with
      | .error e => .error e
      | .ok true => .ok (V.inf, c1)
      | .ok false =>
        iseCases cfg c1 (Vadd acc (Vmul (Vsub v (V.fin t)) (Vsub v (V.fin t)))) rest

/-- `Chromosome.inv_squared_error(*args)`: per chromosome, return the cached
fitness if present, otherwise run the case loop from `0` and store and return
`1.0 / (1 + sum)`. -/
def inv_squared_error (cfg : Config) :
    List Chromosome → Except PyErr (List V × List Chromosome)
  | [] => .ok ([], [])
  | c :: cs =>
    match c.fitness with
    | some f =>
      match inv_squared_error cfg cs with
      | .error e => .error e
      | .ok (fs, cs2) => .ok (f :: fs, c :: cs2)
    | none =>
      match iseCases cfg c (V.fin 0) cfg.fitness_cases with
      | .error e => .error e
      | .ok (s, c1) =>
        match Vdiv (V.fin 1) (Vadd (V.fin 1) s) with
        | .error e => .error e
        | .ok fit =>
          match inv_squared_error cfg cs with
          | .error e => .error e
          | .ok (fs, cs2) => .ok (fit :: fs, { c1 with fitness := some fit } :: cs2)

/-- `Chromosome.fitness()`: the stored fitness when it has been computed,
otherwise the default `0` together with a raised warning (the boolean). -/
def fitnessGet (c : Chromosome) : V × Bool :=
  match c.fitness with
  | some f => (f, false)
  | none => (V.fin 0, true)

/-! ### Small spec-side helpers for stating the claims -/

/-- Whether a value is a finite real. -/
def V.isFin : V → Bool
  | V.fin _ => true
  | _ => false

/-- The rational carried by a finite value (junk elsewhere). -/
def vq : V → ℚ
  | V.fin q => q
  | _ => 0

/-- Number of `'?'` occurrences in one gene. -/
def qmarks (g : List Char) : Nat := g.count '?'

/-- Per-case evaluation harness: evaluate each fitness case's bindings in
order, collecting the values (used to state what the scorers' per-case values
are). -/
def evalSeq (cfg : Config) :
    Chromosome → List (List (Char × ℚ) × ℚ) → Except PyErr (List V × Chromosome)
  | c, [] => .ok ([], c)
  | c, (b, _) :: rest =>
    match evaluate cfg c b with
    | (_, _, .error e) => .error e
    | (c1, _, .ok v) =>
      match evalSeq cfg c1 rest with
      | .error e => .error e
      | .ok (vs, c2) => .ok (v :: vs, c2)

/-- `Σ (M − |evaluated − target|)` over the cases, the absolute-fitness
aggregate of the spec. -/
def absSum (M : ℚ) (vs : List V) (cases : List (List (Char × ℚ) × ℚ)) : ℚ :=
  ((vs.zip cases).map (fun p => M - |vq p.1 - p.2.2|)).sum

/-- `Σ (evaluated − target)²` over the cases, the squared-error aggregate of
the spec. -/
def sqSum (vs : List V) (cases : List (List (Char × ℚ) × ℚ)) : ℚ :=
  ((vs.zip cases).map (fun p => (vq p.1 - p.2.2) ^ 2)).sum

/-! ### Arena model of `anytree` nodes (claim C8)

`link_recursive` mutates its argument nodes: `tree.parent = root` rewrites the
argument root's parent back-reference (and the involved children tuples).
To state that frame effect, nodes live in an explicit heap addressed by
allocation index, with both the parent pointer and the ordered children list
`anytree` maintains. -/

/-- One `anytree.Node`: symbol, parent back-reference, ordered children. -/
structure ANode where
  name : Char
  parent : Option Nat
  kids : List Nat
deriving DecidableEq, Repr

/-- The node heap; a node's identity is its index. -/
abbrev Heap := List ANode

/-- Update the node at index `i`. -/
def hUpd (h : Heap) (i : Nat) (f : ANode → ANode) : Heap :=
  match h, i with
  | [], _ => []
  | n :: r, 0 => f n :: r
  | n :: r, j + 1 => n :: hUpd r j f

/-- `Node(name)`: allocate a fresh parentless, childless node. -/
def hNew (h : Heap) (nm : Char) : Heap × Nat :=
  (h ++ [⟨nm, none, []⟩], h.length)

/-- `child.parent = p` in `anytree`: detach `child` from its old parent's
children (if any), set the back-reference, and append `child` to the new
parent's children. -/
def setParent (h : Heap) (child p : Nat) : Heap :=
  let h1 :=
    match h.get? child with
    | some n =>
      match n.parent with
      | some oldp => hUpd h oldp (fun m => { m with kids := m.kids.erase child })
      | none => h
    | none => h
  let h2 := hUpd h1 child (fun m => { m with parent := some p })
  hUpd h2 p (fun m => { m with kids := m.kids ++ [child] })

/-- `link_recursive(*args)` over the heap: allocate the fresh root first (the
Python constructor runs before the branch, so the combining case allocates a
root it never uses), then either attach the `nargs` argument roots in order or
recurse on chunks.  `fuel` is the recursion budget. -/
def linkRecA (lf : Char) (nargs : Nat) : Nat → Heap → List Nat → Option (Heap × Nat)
  | 0, _, _ => none
  | fuel + 1, h, args =>
    let hr := hNew h lf
    if args.length = nargs then
      some (args.foldl (fun acc a => setParent acc a hr.2) hr.1, hr.2)
    else
      match linkRecA lf nargs fuel hr.1 (args.take nargs) with
      | none => none
      | some (h2, t) => linkRecA lf nargs fuel h2 (t :: args.drop nargs)

/-- `Chromosome.link(*args)` over the heap (the registration guard as in
`link`). -/
def linkA (cfg : Config) (h : Heap) (args : List Nat) : Except PyErr (Heap × Nat) :=
  match cfg.linking_function with
  | none => .error .valueErr
  | some lf =>
    match alookup cfg.functions lf with
    | none => .error .valueErr
    | some fd =>
      match linkRecA lf fd.args (args.length + 2) h args with
      | some r => .ok r
      | none => .error .recLimit

/-! ### Concrete instances used by witnesses and counterexamples -/

/-- Exact rational addition as a registered callable. -/
def addFn : FuncDef :=
  ⟨2, fun vs =>
    match vs with
    | [V.fin a, V.fin b] => .ok (V.fin (qadd a b))
    | _ => .error .typeErr⟩

/-- Exact rational division as a registered callable; division by zero raises
`ZeroDivisionError` as in Python. -/
def divFn : FuncDef :=
  ⟨2, fun vs =>
    match vs with
    | [V.fin a, V.fin b] =>
      if b = 0 then .error .zeroDiv else .ok (V.fin (qdiv a b))
    | _ => .error .typeErr⟩

/-- A small single-gene configuration: `+` (addition) and `/` (division),
variable `x`, ephemeral placeholder `?`, one fitness case `({x: 2}, 4)`. -/
def cfgEx : Config :=
  { functions := [('+', addFn), ('/', divFn)]
    terminals := ['a', 'b', 'x', '?']
    constants := []
    ephemeral_random_constants_range := some (-1, 1)
    linking_function := some '+'
    num_genes := 1
    head_length := some 3
    length := some 3
    fitness_cases := [([('x', 2)], 4)] }

/-- The chromosome with the single gene `"+xx"` (evaluates to `2x`). -/
def cEx : Chromosome := ⟨[['+', 'x', 'x']], [], [], none, [0, 0, 0]⟩

/-- The chromosome with the single gene `"/xx"` (evaluates to `x/x`,
division by zero at `x = 0`). -/
def cDiv : Chromosome := ⟨[['/', 'x', 'x']], [], [], none, [0, 0, 0]⟩

/-- `cfgEx` with the single fitness case `({x: 0}, 4)`, on which `cDiv`
produces `nan`. -/
def cfgEx0 : Config := { cfgEx with fitness_cases := [([('x', 0)], 4)] }

/-- A multigenic configuration whose genes are the single symbol `?`:
two genes, gene length 1. -/
def cfgQ : Config :=
  { functions := [('+', addFn)]
    terminals := ['?']
    constants := []
    ephemeral_random_constants_range := some (-1, 1)
    linking_function := some '+'
    num_genes := 2
    head_length := some 1
    length := some 1
    fitness_cases := [] }

/-- The chromosome `["?", "?"]` under `cfgQ` with its single ephemeral
constant slot. -/
def cQ : Chromosome := ⟨[['?'], ['?']], [], [], none, [mkRat 1 2]⟩

/-- `cfgQ` restricted to a single gene. -/
def cfgQ1 : Config := { cfgQ with num_genes := 1 }

/-- The chromosome `["?"]` under `cfgQ1` with ephemeral constants `[1/2]`. -/
def cQ1 : Chromosome := ⟨[['?']], [], [], none, [mkRat 1 2]⟩

/-! ## Theorems -/

/-! ### The `mkRat`-based operations are the field operations of `ℚ` -/

theorem qadd_eq (a b : ℚ) : qadd a b = a + b := by
  unfold qadd
  rw [Rat.mkRat_eq_div]
  push_cast
  conv_rhs => rw [← Rat.num_div_den a, ← Rat.num_div_den b]
  have ha : (a.den : ℚ) ≠ 0 := by exact_mod_cast a.den_nz
  have hb : (b.den : ℚ) ≠ 0 := by exact_mod_cast b.den_nz
  field_simp
  try ring

theorem qsub_eq (a b : ℚ) : qsub a b = a - b := by
  unfold qsub
  rw [Rat.mkRat_eq_div]
  push_cast
  conv_rhs => rw [← Rat.num_div_den a, ← Rat.num_div_den b]
  have ha : (a.den : ℚ) ≠ 0 := by exact_mod_cast a.den_nz
  have hb : (b.den : ℚ) ≠ 0 := by exact_mod_cast b.den_nz
  field_simp
  try ring

theorem qmul_eq (a b : ℚ) : qmul a b = a * b := by
  unfold qmul
  rw [Rat.mkRat_eq_div]
  push_cast
  conv_rhs => rw [← Rat.num_div_den a, ← Rat.num_div_den b]
  have ha : (a.den : ℚ) ≠ 0 := by exact_mod_cast a.den_nz
  have hb : (b.den : ℚ) ≠ 0 := by exact_mod_cast b.den_nz
  field_simp
  try ring

theorem qabs_eq (a : ℚ) : qabs a = |a| := by
  unfold qabs
  rw [Rat.mkRat_eq_div]
  conv_rhs => rw [← Rat.num_div_den a]
  rw [abs_div]
  push_cast
  congr 1
  rw [abs_of_nonneg]
  positivity

theorem qdiv_eq (a b : ℚ) (hb : b ≠ 0) : qdiv a b = a / b := by
  unfold qdiv
  rw [Rat.mkRat_eq_div]
  have hbn : b.num ≠ 0 := Rat.num_ne_zero.mpr hb
  have ha : (a.den : ℚ) ≠ 0 := by exact_mod_cast a.den_nz
  have hd : (b.den : ℚ) ≠ 0 := by exact_mod_cast b.den_nz
  have hq : (b.num : ℚ) ≠ 0 := by exact_mod_cast hbn
  conv_rhs => rw [← Rat.num_div_den a, ← Rat.num_div_den b]
  rcases hbn.lt_or_lt with h | h
  · have hs : b.num.sign = -1 := Int.sign_eq_neg_one_of_neg h
    rw [hs]
    push_cast [Int.cast_natAbs]
    rw [abs_of_neg (show (b.num : ℚ) < 0 by exact_mod_cast h)]
    field_simp
  · have hs : b.num.sign = 1 := Int.sign_eq_one_of_pos h
    rw [hs]
    push_cast [Int.cast_natAbs]
    rw [abs_of_pos (show (0 : ℚ) < b.num by exact_mod_cast h)]
    field_simp

/-! ### Claim C2 — linking -/

/-- One-step unfolding of `link_recursive` with positive budget. -/
theorem linkRec_succ (sym : Char) (nargs fuel : Nat) (args : List Tree) :
    linkRec sym nargs (fuel + 1) args =
      if args.length = nargs then some (Tree.node sym args)
      else
        match linkRec sym nargs fuel (args.take nargs) with
        | none => none
        | some t => linkRec sym nargs fuel (t :: args.drop nargs) := rfl

/-- Claim C2: with a linking function of arity `k`, linking exactly `k` trees
returns a single fresh root labelled with the linking symbol whose children
are the `k` trees in order; linking more than `k` trees first links the first
`k` into a combined subtree and then recursively links that combined subtree
together with the remaining trees. -/
theorem claim_C2 :
    (∀ (cfg : Config) (lf : Char) (fd : FuncDef) (trees : List Tree),
      cfg.linking_function = some lf →
      alookup cfg.functions lf = some fd →
      trees.length = fd.args →
      link cfg trees = .ok (Tree.node lf trees)) ∧
    (∀ (sym : Char) (k fuel : Nat) (trees : List Tree),
      trees.length > k →
      linkRec sym k (fuel + 2) trees =
        linkRec sym k (fuel + 1) (Tree.node sym (trees.take k) :: trees.drop k)) := by
  constructor
  · intro cfg lf fd trees hlf hfd hlen
    unfold link
    rw [hlf]
    simp only []
    rw [hfd]
    simp only []
    rw [show trees.length + 2 = (trees.length + 1) + 1 from rfl, linkRec_succ,
      if_pos hlen]
  · intro sym k fuel trees hgt
    have hne : trees.length ≠ k := Nat.ne_of_gt hgt
    have htk : (trees.take k).length = k := by
      simp [Nat.min_eq_left (Nat.le_of_lt hgt)]
    rw [show fuel + 2 = (fuel + 1) + 1 from rfl, linkRec_succ, if_neg hne,
      linkRec_succ, if_pos htk]

/-- Witness for C2: linking the two leaves `a`, `b` under `cfgEx` (arity-2
`+`) gives the root `+` with children `a`, `b`; linking three leaves unfolds
to linking the combined first pair with the third. -/
theorem claim_C2_witness :
    link cfgEx [Tree.node 'a' [], Tree.node 'b' []] =
      .ok (Tree.node '+' [Tree.node 'a' [], Tree.node 'b' []]) ∧
    linkRec '+' 2 2 [Tree.node 'a' [], Tree.node 'b' [], Tree.node 'x' []] =
      linkRec '+' 2 1
        [Tree.node '+' [Tree.node 'a' [], Tree.node 'b' []], Tree.node 'x' []] := by
  constructor
  · exact claim_C2.1 cfgEx '+' addFn [Tree.node 'a' [], Tree.node 'b' []] rfl rfl rfl
  · exact claim_C2.2 '+' 2 0 [Tree.node 'a' [], Tree.node 'b' [], Tree.node 'x' []]
      (by decide)

/-! ### Claim C9 — the fitness getter -/

/-- Shape of `absolute_fitness` on a single chromosome. -/
theorem absFit_single (cfg : Config) (M : ℚ) (c : Chromosome) :
    absolute_fitness cfg M [c] =
      match c.fitness with
      | some f => .ok ([f], [c])
      | none =>
        match absCases cfg M c (V.fin 0) cfg.fitness_cases with
        | .error e => .error e
        | .ok (fit, c1) => .ok ([fit], [{ c1 with fitness := some fit }]) := by
  unfold absolute_fitness
  cases c.fitness with
  | some f => rfl
  | none =>
    cases absCases cfg M c (V.fin 0) cfg.fitness_cases with
    | error e => rfl
    | ok p => rfl

/-- Claim C9: the fitness getter never raises; a chromosome whose fitness was
set yields the stored value with no warning, and one whose fitness is unset
yields the default `0` together with a warning; in particular the getter
returns exactly what `absolute_fitness` stored. -/
theorem claim_C9 :
    ∀ (c : Chromosome),
      (∀ f, c.fitness = some f → fitnessGet c = (f, false)) ∧
      (c.fitness = none → fitnessGet c = (V.fin 0, true)) ∧
      (∀ (cfg : Config) (M : ℚ) (f : V) (c2 : Chromosome),
        absolute_fitness cfg M [c] = .ok ([f], [c2]) → fitnessGet c2 = (f, false)) := by
  intro c
  refine ⟨?_, ?_, ?_⟩
  · intro f hf
    unfold fitnessGet
    rw [hf]
  · intro hf
    unfold fitnessGet
    rw [hf]
  · intro cfg M f c2 h
    rw [absFit_single] at h
    cases hf : c.fitness with
    | some g =>
      rw [hf] at h
      simp only [Except.ok.injEq, Prod.mk.injEq, List.cons.injEq, and_true] at h
      obtain ⟨hfg, hc⟩ := h
      rw [← hc]
      simp [fitnessGet, hf, hfg]
    | none =>
      rw [hf] at h
      cases hc : absCases cfg M c (V.fin 0) cfg.fitness_cases with
      | error e =>
        rw [hc] at h
        exact absurd h (by simp)
      | ok p =>
        rw [hc] at h
        simp only [Except.ok.injEq, Prod.mk.injEq, List.cons.injEq, and_true] at h
        obtain ⟨hf1, hc2⟩ := h
        rw [← hc2]
        show (p.1, false) = (f, false)
        rw [hf1]

/-- Witness for C9 at concrete chromosomes: one scored `5`, one unscored. -/
theorem claim_C9_witness :
    fitnessGet ⟨[], [], [], some (V.fin 5), []⟩ = (V.fin 5, false) ∧
    fitnessGet ⟨[], [], [], none, []⟩ = (V.fin 0, true) := by
  constructor
  · exact (claim_C9 ⟨[], [], [], some (V.fin 5), []⟩).1 (V.fin 5) rfl
  · exact (claim_C9 ⟨[], [], [], none, []⟩).2.1 rfl

/-! ### Claim C3 — memoization of `evaluate` -/

theorem vlookup_head (fp : List (Char × ℚ)) (v : V) (r : List (List (Char × ℚ) × V)) :
    vlookup ((fp, v) :: r) fp = some v := by
  simp [vlookup]

/-- Unfolded form of `evaluate` (the local `let` bindings inlined). -/
theorem evaluate_eq (cfg : Config) (c : Chromosome) (tv : List (Char × ℚ)) :
    evaluate cfg c tv =
      match vlookup c.values (sortKeys tv) with
      | some v => (c, ⟨false, false, 0⟩, .ok v)
      | none =>
        match (if c.trees.isEmpty then buildTrees cfg c.genes else .ok c.trees) with
        | .error e => (c, ⟨false, false, 0⟩, .error e)
        | .ok trees =>
          match (if cfg.num_genes > 1 then link cfg trees
                 else match trees.head? with
                      | some t => .ok t
                      | none => .error .indexErr) with
          | .error e =>
            ({ c with trees := trees },
             ⟨c.trees.isEmpty, decide (cfg.num_genes > 1), 0⟩, .error e)
          | .ok et =>
            settle (sortKeys tv) { c with trees := trees }
              ⟨c.trees.isEmpty, decide (cfg.num_genes > 1), 0⟩
              (inorder cfg c.ephemeral_random_constants tv pyStack et 0) := rfl

/-- A successful `evaluate` leaves the returned value in the cache under the
binding fingerprint and never removes entries. -/
theorem evaluate_stores (cfg : Config) (c : Chromosome) (tv : List (Char × ℚ))
    (v : V) (c1 : Chromosome) (w : EvalWork)
    (h : evaluate cfg c tv = (c1, w, .ok v)) :
    vlookup c1.values (sortKeys tv) = some v := by
  rw [evaluate_eq] at h
  cases hlk : vlookup c.values (sortKeys tv) with
  | some v0 =>
    rw [hlk] at h
    simp only [Prod.mk.injEq, Except.ok.injEq] at h
    obtain ⟨hc, -, hv⟩ := h
    rw [← hc, hlk, hv]
  | none =>
    rw [hlk] at h
    simp only [] at h
    cases hb : (if c.trees.isEmpty then buildTrees cfg c.genes else .ok c.trees) with
    | error e =>
      rw [hb] at h
      simp only [Prod.mk.injEq] at h
      exact absurd h.2.2 (by simp)
    | ok trees =>
      rw [hb] at h
      simp only [] at h
      cases hl : (if cfg.num_genes > 1 then link cfg trees
                  else match trees.head? with
                       | some t => .ok t
                       | none => .error .indexErr) with
      | error e =>
        rw [hl] at h
        simp only [Prod.mk.injEq] at h
        exact absurd h.2.2 (by simp)
      | ok et =>
        rw [hl] at h
        simp only [] at h
        unfold settle at h
        cases hr : inorder cfg c.ephemeral_random_constants tv pyStack et 0 with
        | ok p =>
          rw [hr] at h
          obtain ⟨pv, pi, pa⟩ := p
          simp only [Prod.mk.injEq] at h
          obtain ⟨hc, -, hv⟩ := h
          rw [← hc]
          simp only [Except.ok.injEq] at hv
          rw [← hv]
          exact vlookup_head _ _ _
        | error e =>
          rw [hr] at h
          cases e with
          | zeroDiv =>
            simp only [Prod.mk.injEq, Except.ok.injEq] at h
            obtain ⟨hc, -, hv⟩ := h
            rw [← hc, ← hv]
            exact vlookup_head _ _ _
          | typeErr =>
            simp only [Prod.mk.injEq, Except.ok.injEq] at h
            obtain ⟨hc, -, hv⟩ := h
            rw [← hc, ← hv]
            exact vlookup_head _ _ _
          | keyErr => simp at h
          | indexErr => simp at h
          | valueErr => simp at h
          | recLimit => simp at h

/-- Claim C3: calling `evaluate` a second time with an identical bindings
mapping (same fingerprint — bindings sorted by name) returns the value cached
by the first call, leaves the chromosome untouched, and performs no tree
building, no linking and no callable application. -/
theorem claim_C3 :
    ∀ (cfg : Config) (c : Chromosome) (tv tv2 : List (Char × ℚ)) (v : V)
      (c1 : Chromosome) (w : EvalWork),
      evaluate cfg c tv = (c1, w, .ok v) →
      sortKeys tv2 = sortKeys tv →
      evaluate cfg c1 tv2 = (c1, ⟨false, false, 0⟩, .ok v) := by
  intro cfg c tv tv2 v c1 w h hfp
  have hs := evaluate_stores cfg c tv v c1 w h
  rw [evaluate_eq, hfp, hs]

/-- Witness for C3: evaluating `"+xx"` at `{x: 2, y: 1}` and then again with
the bindings listed in the other order hits the cache. -/
theorem claim_C3_witness :
    evaluate cfgEx (evaluate cfgEx cEx [('x', 2), ('y', 1)]).1 [('y', 1), ('x', 2)] =
      ((evaluate cfgEx cEx [('x', 2), ('y', 1)]).1, ⟨false, false, 0⟩, .ok (V.fin 4)) :=
  claim_C3 cfgEx cEx [('x', 2), ('y', 1)] [('y', 1), ('x', 2)] (V.fin 4)
    (evaluate cfgEx cEx [('x', 2), ('y', 1)]).1 ⟨true, false, 1⟩ (by rfl) (by rfl)

/-! ### Claim C5 — arithmetic failures become `nan` -/

theorem grabChildren_zero (cfg : Config) (name : Char) (cl : Nat)
    (levels : List (List Char)) :
    grabChildren cfg 0 name cl levels = .error .recLimit := rfl

theorem grabChildren_succ (cfg : Config) (fuel : Nat) (name : Char) (cl : Nat)
    (levels : List (List Char)) :
    grabChildren cfg (fuel + 1) name cl levels =
      if cl < levels.length then grabLoop cfg fuel cl levels (argsOf cfg name) 0
      else .ok ([], levels) := rfl

theorem grabLoop_zero (cfg : Config) (cl : Nat) (levels : List (List Char))
    (todo i : Nat) :
    grabLoop cfg 0 cl levels todo i = .error .recLimit := rfl

theorem grabLoop_succ_zero (cfg : Config) (fuel cl : Nat)
    (levels : List (List Char)) (i : Nat) :
    grabLoop cfg (fuel + 1) cl levels 0 i = .ok ([], levels) := rfl

theorem grabLoop_succ_succ (cfg : Config) (fuel cl : Nat)
    (levels : List (List Char)) (todo i : Nat) :
    grabLoop cfg (fuel + 1) cl levels (todo + 1) i =
      match levels.get? cl with
      | none => .error .indexErr
      | some l =>
        match l.get? i with
        | none => .error .indexErr
        | some c =>
          match grabChildren cfg fuel c (cl + 1) levels with
          | .error e => .error e
          | .ok (kids, levels1) =>
            let levels2 :=
              if cl < levels1.length - 1 then updLevel levels1 (cl + 1) (argsOf cfg c)
              else levels1
            match grabLoop cfg fuel cl levels2 todo (i + 1) with
            | .error e => .error e
            | .ok (rest, levels3) => .ok (Tree.node c kids :: rest, levels3) := rfl

/-- `grab_children` can only fail with `IndexError` (short level) or by
exhausting the recursion budget. -/
theorem grab_err (cfg : Config) : ∀ fuel : Nat,
    (∀ name cl levels e, grabChildren cfg fuel name cl levels = .error e →
      e = PyErr.indexErr ∨ e = PyErr.recLimit) ∧
    (∀ cl levels todo i e, grabLoop cfg fuel cl levels todo i = .error e →
      e = PyErr.indexErr ∨ e = PyErr.recLimit) := by
  intro fuel
  induction fuel with
  | zero =>
    constructor
    · intro name cl levels e h
      rw [grabChildren_zero] at h
      cases h
      right
      rfl
    · intro cl levels todo i e h
      rw [grabLoop_zero] at h
      cases h
      right
      rfl
  | succ f ih =>
    constructor
    · intro name cl levels e h
      rw [grabChildren_succ] at h
      by_cases hcl : cl < levels.length
      · rw [if_pos hcl] at h
        exact ih.2 _ _ _ _ _ h
      · rw [if_neg hcl] at h
        exact absurd h (by simp)
    · intro cl levels todo i e h
      cases todo with
      | zero =>
        rw [grabLoop_succ_zero] at h
        exact absurd h (by simp)
      | succ todo =>
        rw [grabLoop_succ_succ] at h
        cases hg : levels.get? cl with
        | none =>
          rw [hg] at h
          cases h
          left
          rfl
        | some l =>
          rw [hg] at h
          simp only [] at h
          cases hi : l.get? i with
          | none =>
            rw [hi] at h
            cases h
            left
            rfl
          | some c =>
            rw [hi] at h
            simp only [] at h
            cases hgc : grabChildren cfg f c (cl + 1) levels with
            | error e1 =>
              rw [hgc] at h
              cases h
              exact ih.1 _ _ _ _ hgc
            | ok p =>
              rw [hgc] at h
              obtain ⟨kids, levels1⟩ := p
              simp only [] at h
              cases hgl : grabLoop cfg f cl
                  (if cl < levels1.length - 1 then updLevel levels1 (cl + 1) (argsOf cfg c)
                   else levels1) todo (i + 1) with
              | error e2 =>
                rw [hgl] at h
                cases h
                exact ih.2 _ _ _ _ _ hgl
              | ok q =>
                rw [hgl] at h
                obtain ⟨rest, levels3⟩ := q
                exact absurd h (by simp)

/-- `build_tree` can only fail with `IndexError` or the recursion budget. -/
theorem build_tree_err (cfg : Config) (gene : List Char) (e : PyErr)
    (h : build_tree cfg gene = .error e) : e = PyErr.indexErr ∨ e = PyErr.recLimit := by
  unfold build_tree at h
  cases gene with
  | nil =>
    cases h
    left
    rfl
  | cons g0 rest =>
    simp only [] at h
    cases hg : grabChildren cfg (wt (mkLevels cfg g0 (g0 :: rest))) g0 1
        (mkLevels cfg g0 (g0 :: rest)) with
    | error e1 =>
      rw [hg] at h
      cases h
      exact (grab_err cfg _).1 _ _ _ _ hg
    | ok p =>
      rw [hg] at h
      obtain ⟨kids, lv⟩ := p
      exact absurd h (by simp)

/-- So can the list of per-gene builds. -/
theorem buildTrees_err (cfg : Config) : ∀ (gs : List (List Char)) (e : PyErr),
    buildTrees cfg gs = .error e → e = PyErr.indexErr ∨ e = PyErr.recLimit := by
  intro gs
  induction gs with
  | nil =>
    intro e h
    exact absurd h (by simp [buildTrees])
  | cons g gs ih =>
    intro e h
    unfold buildTrees at h
    cases hb : build_tree cfg g with
    | error e1 =>
      rw [hb] at h
      cases h
      exact build_tree_err cfg g _ hb
    | ok t =>
      rw [hb] at h
      simp only [] at h
      cases hr : buildTrees cfg gs with
      | error e2 =>
        rw [hr] at h
        cases h
        exact ih _ hr
      | ok ts =>
        rw [hr] at h
        exact absurd h (by simp)

/-- `Chromosome.link` can only fail with `ValueError` (unregistered linking
function) or the recursion budget. -/
theorem link_err (cfg : Config) (args : List Tree) (e : PyErr)
    (h : link cfg args = .error e) : e = PyErr.valueErr ∨ e = PyErr.recLimit := by
  unfold link at h
  cases hlf : cfg.linking_function with
  | none =>
    rw [hlf] at h
    cases h
    left
    rfl
  | some lf =>
    rw [hlf] at h
    simp only [] at h
    cases hfd : alookup cfg.functions lf with
    | none =>
      rw [hfd] at h
      cases h
      left
      rfl
    | some fd =>
      rw [hfd] at h
      simp only [] at h
      cases hlr : linkRec lf fd.args (args.length + 2) args with
      | none =>
        rw [hlr] at h
        cases h
        right
        rfl
      | some t =>
        rw [hlr] at h
        exact absurd h (by simp)

/-- Claim C5: any arithmetic failure during tree reduction — a
`ZeroDivisionError`, a `TypeError` (such as a complex square root), or a
complex root value — is caught and that invocation returns the `nan`
sentinel; `evaluate` never propagates those two exceptions to the caller. -/
theorem claim_C5 :
    (∀ (fp : List (Char × ℚ)) (c : Chromosome) (w : EvalWork)
        (r : Except PyErr (V × Nat × Nat)),
      ((∃ i a, r = .ok (V.cpx, i, a)) ∨ r = .error .zeroDiv ∨ r = .error .typeErr) →
      (settle fp c w r).2.2 = .ok V.nan) ∧
    (∀ (cfg : Config) (c : Chromosome) (tv : List (Char × ℚ)),
      (evaluate cfg c tv).2.2 ≠ .error .zeroDiv ∧
      (evaluate cfg c tv).2.2 ≠ .error .typeErr) := by
  constructor
  · intro fp c w r hr
    rcases hr with ⟨i, a, hr⟩ | hr | hr
    · rw [hr]
      rfl
    · rw [hr]
      rfl
    · rw [hr]
      rfl
  · intro cfg c tv
    rw [evaluate_eq]
    cases hlk : vlookup c.values (sortKeys tv) with
    | some v => exact ⟨by simp, by simp⟩
    | none =>
      simp only []
      cases hb : (if c.trees.isEmpty then buildTrees cfg c.genes else .ok c.trees) with
      | error e =>
        have he : e = PyErr.indexErr ∨ e = PyErr.recLimit := by
          by_cases hc : c.trees.isEmpty
          · rw [if_pos hc] at hb
            exact buildTrees_err cfg _ _ hb
          · rw [if_neg hc] at hb
            exact absurd hb (by simp)
        simp only []
        constructor
        · intro hx
          simp only [Except.error.injEq] at hx
          rcases he with he | he <;> simp [hx] at he
        · intro hx
          simp only [Except.error.injEq] at hx
          rcases he with he | he <;> simp [hx] at he
      | ok trees =>
        simp only []
        cases hl : (if cfg.num_genes > 1 then link cfg trees
                    else match trees.head? with
                         | some t => .ok t
                         | none => .error .indexErr) with
        | error e =>
          have he : e = PyErr.valueErr ∨ e = PyErr.recLimit ∨ e = PyErr.indexErr := by
            by_cases hn : cfg.num_genes > 1
            · rw [if_pos hn] at hl
              rcases link_err cfg _ _ hl with h1 | h1
              · left; exact h1
              · right; left; exact h1
            · rw [if_neg hn] at hl
              cases ht : trees.head? with
              | some t =>
                rw [ht] at hl
                exact absurd hl (by simp)
              | none =>
                rw [ht] at hl
                cases hl
                right; right; rfl
          simp only []
          constructor
          · intro hx
            simp only [Except.error.injEq] at hx
            rcases he with he | he | he <;> simp [hx] at he
          · intro hx
            simp only [Except.error.injEq] at hx
            rcases he with he | he | he <;> simp [hx] at he
        | ok et =>
          simp only []
          unfold settle
          cases hr : inorder cfg c.ephemeral_random_constants tv pyStack et 0 with
          | ok p =>
            obtain ⟨pv, pi, pa⟩ := p
            exact ⟨by simp, by simp⟩
          | error e =>
            cases e with
            | zeroDiv => exact ⟨by simp, by simp⟩
            | typeErr => exact ⟨by simp, by simp⟩
            | keyErr => exact ⟨by simp, by simp⟩
            | indexErr => exact ⟨by simp, by simp⟩
            | valueErr => exact ⟨by simp, by simp⟩
            | recLimit => exact ⟨by simp, by simp⟩

/-- Witness for C5: the chromosome `"/xx"` divides by zero at `x = 0` and its
evaluation returns the `nan` sentinel rather than an exception. -/
theorem claim_C5_witness :
    (settle [] cEx ⟨false, false, 0⟩ (.error .zeroDiv)).2.2 = .ok V.nan ∧
    (evaluate cfgEx cDiv [('x', 0)]).2.2 ≠ .error .zeroDiv ∧
    (evaluate cfgEx cDiv [('x', 0)]).2.2 = .ok V.nan := by
  refine ⟨claim_C5.1 [] cEx ⟨false, false, 0⟩ (.error .zeroDiv) (by simp), ?_, ?_⟩
  · exact (claim_C5.2 cfgEx cDiv [('x', 0)]).1
  · rfl

/-! ### Claim C4 — ephemeral random constants -/

/-- Cursor-based and stream-based ephemeral-constant consumption agree: the
traversal with cursor `idx` behaves exactly like consuming the suffix
`ercs.drop idx` from the front, in traversal order. -/
theorem inorder_stream (cfg : Config) (tv : List (Char × ℚ)) (ercs : List ℚ) :
    ∀ fuel : Nat,
      (∀ (t : Tree) (idx : Nat),
        inorderS cfg tv fuel t (ercs.drop idx) =
          Except.map (fun p => (p.1, ercs.drop p.2.1, p.2.2))
            (inorder cfg ercs tv fuel t idx)) ∧
      (∀ (ts : List Tree) (idx : Nat),
        inorderSKids cfg tv fuel ts (ercs.drop idx) =
          Except.map (fun p => (p.1, ercs.drop p.2.1, p.2.2))
            (inorderKids cfg ercs tv fuel ts idx)) := by
  intro fuel
  induction fuel with
  | zero =>
    constructor
    · intro t idx
      rfl
    · intro ts idx
      rfl
  | succ f ih =>
    constructor
    · intro t idx
      obtain ⟨nm, ch⟩ := t
      simp only [inorder, inorderS]
      by_cases ht : nm ∈ cfg.terminals
      · rw [if_pos ht, if_pos ht]
        by_cases hq : nm = '?'
        · rw [if_pos hq, if_pos hq]
          cases hg : ercs.get? idx with
          | some q =>
            obtain ⟨hlt, hget⟩ := List.get?_eq_some.mp hg
            rw [List.drop_eq_getElem_cons hlt]
            simp only [Except.map]
            rw [← hget]
            rfl
          | none =>
            have hle : ercs.length ≤ idx := List.get?_eq_none.mp hg
            rw [List.drop_eq_nil_of_le hle]
            rfl
        · rw [if_neg hq, if_neg hq]
          cases alookup cfg.constants nm with
          | some v => rfl
          | none =>
            by_cases hd : isDig nm
            · rw [if_pos hd, if_pos hd]
              rfl
            · rw [if_neg hd, if_neg hd]
              cases alookup tv nm with
              | some q => rfl
              | none => rfl
      · rw [if_neg ht, if_neg ht]
        cases alookup cfg.functions nm with
        | none => rfl
        | some fd =>
          rw [ih.2 ch idx]
          cases hk : inorderKids cfg ercs tv f ch idx with
          | error e => rfl
          | ok p =>
            obtain ⟨vs, idx2, a⟩ := p
            simp only [Except.map]
            cases fd.f vs with
            | error e => rfl
            | ok v => rfl
    · intro ts idx
      cases ts with
      | nil => rfl
      | cons t ts =>
        simp only [inorderKids, inorderSKids]
        rw [ih.1 t idx]
        cases hr : inorder cfg ercs tv f t idx with
        | error e => rfl
        | ok p =>
          obtain ⟨v, idx1, a1⟩ := p
          simp only [Except.map]
          rw [ih.2 ts idx1]
          cases hk : inorderKids cfg ercs tv f ts idx1 with
          | error e => rfl
          | ok q =>
            obtain ⟨vs, idx2, a2⟩ := q
            rfl

/-- Counterexample to C4 as stated: under `cfgQ` the chromosome `["?", "?"]`
is validly constructed from a uniform sample that meets the numpy contract
(`length` values in range), yet the number of possible `'?'` occurrences
across all genes (2) exceeds the number of ephemeral-constant slots (1), and
evaluation runs off the end of the constants list with an `IndexError`. -/
theorem claim_C4_counterexample :
    init cfgQ [['?'], ['?']] [mkRat 1 2] = .ok cQ ∧
    cfgQ.length = some 1 ∧
    ([mkRat 1 2] : List ℚ).length = 1 ∧
    cfgQ.ephemeral_random_constants_range = some (-1, 1) ∧
    (-1 : ℚ) ≤ mkRat 1 2 ∧ mkRat 1 2 ≤ 1 ∧
    (cQ.genes.map qmarks).sum = 2 ∧
    cQ.ephemeral_random_constants.length = 1 ∧
    ¬ (cQ.genes.map qmarks).sum ≤ cQ.ephemeral_random_constants.length ∧
    (evaluate cfgQ cQ []).2.2 = .error .indexErr := by
  refine ⟨rfl, rfl, rfl, rfl, by decide, by decide, by decide, rfl, by decide, rfl⟩

/-- Claim C4 as amended: the ephemeral constants are a sequence of exactly
`length` values from the configured range fixed at construction (given the
numpy sampling contract); `length` slots cover every possible `'?'` occurrence
of a single gene (the single-gene case) — not of all genes together; during
evaluation each `'?'` consumes the next unused value in order (the
cursor-based traversal equals front-consumption of the unused list), and every
top-level `evaluate` invocation restarts the cursor at slot `0`. -/
theorem claim_C4 :
    (∀ (cfg : Config) (genes : List (List Char)) (sample : List ℚ)
        (c : Chromosome) (lo hi : ℚ) (n : Nat),
      cfg.ephemeral_random_constants_range = some (lo, hi) →
      cfg.length = some n →
      sample.length = n →
      (∀ q ∈ sample, lo ≤ q ∧ q ≤ hi) →
      init cfg genes sample = .ok c →
      c.ephemeral_random_constants.length = n ∧
        ∀ q ∈ c.ephemeral_random_constants, lo ≤ q ∧ q ≤ hi) ∧
    (∀ (g : List Char) (n : Nat) (c : Chromosome),
      c.genes = [g] → g.length = n → c.ephemeral_random_constants.length = n →
      (c.genes.map qmarks).sum ≤ c.ephemeral_random_constants.length) ∧
    (∀ (cfg : Config) (tv : List (Char × ℚ)) (ercs : List ℚ) (fuel : Nat)
        (t : Tree),
      inorderS cfg tv fuel t ercs =
        Except.map (fun p => (p.1, ercs.drop p.2.1, p.2.2))
          (inorder cfg ercs tv fuel t 0)) ∧
    (∀ (cfg : Config) (c : Chromosome) (tv : List (Char × ℚ))
        (trees : List Tree) (et : Tree),
      vlookup c.values (sortKeys tv) = none →
      (if c.trees.isEmpty then buildTrees cfg c.genes else .ok c.trees) = .ok trees →
      (if cfg.num_genes > 1 then link cfg trees
       else match trees.head? with
            | some t => .ok t
            | none => .error .indexErr) = .ok et →
      evaluate cfg c tv =
        settle (sortKeys tv) { c with trees := trees }
          ⟨c.trees.isEmpty, decide (cfg.num_genes > 1), 0⟩
          (inorder cfg c.ephemeral_random_constants tv pyStack et 0)) := by
  refine ⟨?_, ?_, ?_, ?_⟩
  · intro cfg genes sample c lo hi n hr hn hsl hrange h
    unfold init at h
    split_ifs at h
    simp only [Except.ok.injEq] at h
    rw [← h]
    exact ⟨hsl, hrange⟩
  · intro g n c hg hgl hel
    rw [hg]
    simp only [List.map_cons, List.map_nil, List.sum_cons, List.sum_nil, Nat.add_zero]
    rw [hel, ← hgl]
    exact List.count_le_length '?' g
  · intro cfg tv ercs fuel t
    have := (inorder_stream cfg tv ercs fuel).1 t 0
    simpa using this
  · intro cfg c tv trees et hlk hb hl
    rw [evaluate_eq, hlk]
    simp only []
    rw [hb]
    simp only []
    rw [hl]

/-- Witness for the amended C4 at the single-gene chromosome `["?"]` with
one sampled constant `1/2`. -/
theorem claim_C4_witness :
    (cQ1.ephemeral_random_constants.length = 1 ∧
      ∀ q ∈ cQ1.ephemeral_random_constants, (-1 : ℚ) ≤ q ∧ q ≤ 1) ∧
    (cQ1.genes.map qmarks).sum ≤ cQ1.ephemeral_random_constants.length ∧
    inorderS cfgQ1 [] 5 (Tree.node '?' []) [mkRat 1 2] =
      Except.map (fun p => (p.1, ([mkRat 1 2] : List ℚ).drop p.2.1, p.2.2))
        (inorder cfgQ1 [mkRat 1 2] [] 5 (Tree.node '?' []) 0) ∧
    evaluate cfgQ1 cQ1 [] =
      settle (sortKeys []) { cQ1 with trees := [Tree.node '?' []] }
        ⟨cQ1.trees.isEmpty, decide (cfgQ1.num_genes > 1), 0⟩
        (inorder cfgQ1 cQ1.ephemeral_random_constants [] pyStack (Tree.node '?' []) 0) := by
  refine ⟨?_, ?_, ?_, ?_⟩
  · exact claim_C4.1 cfgQ1 [['?']] [mkRat 1 2] cQ1 (-1) 1 1 rfl rfl rfl
      (by decide) rfl
  · exact claim_C4.2.1 ['?'] 1 cQ1 rfl rfl rfl
  · exact claim_C4.2.2.1 cfgQ1 [] [mkRat 1 2] 5 (Tree.node '?' [])
  · exact claim_C4.2.2.2 cfgQ1 cQ1 [] [Tree.node '?' []] (Tree.node '?' []) rfl rfl rfl

/-! ### Claims C6 and C7 — fitness scorers -/

theorem evalSeq_cons (cfg : Config) (c : Chromosome) (b : List (Char × ℚ)) (t : ℚ)
    (rest : List (List (Char × ℚ) × ℚ)) :
    evalSeq cfg c ((b, t) :: rest) =
      match evaluate cfg c b with
      | (_, _, .error e) => .error e
      | (c1, _, .ok v) =>
        match evalSeq cfg c1 rest with
        | .error e => .error e
        | .ok (vs, c2) => .ok (v :: vs, c2) := rfl

/-- A finite, non-`None` value passes the scorers' bad-value guard. -/
theorem badV_fin (q : ℚ) : badV (V.fin q) = .ok false := rfl

/-- A non-finite value other than `None` trips the scorers' bad-value guard. -/
theorem badV_notFin (v : V) (hp : v ≠ V.pynone) (hf : v.isFin = false) :
    badV v = .ok true := by
  cases v with
  | fin q => simp [V.isFin] at hf
  | nan => rfl
  | inf => rfl
  | ninf => rfl
  | cpx => rfl
  | pynone => exact absurd rfl hp

/-- When every case value is finite, the absolute-fitness loop accumulates
`Σ (M − |value − target|)` on top of the accumulator and ends in the same
state as plain sequential evaluation. -/
theorem absCases_good (cfg : Config) (M : ℚ) :
    ∀ (cases : List (List (Char × ℚ) × ℚ)) (c : Chromosome) (acc : ℚ)
      (vs : List V) (c2 : Chromosome),
      evalSeq cfg c cases = .ok (vs, c2) →
      (∀ v ∈ vs, v.isFin) →
      absCases cfg M c (V.fin acc) cases =
        .ok (V.fin (acc + absSum M vs cases), c2) := by
  intro cases
  induction cases with
  | nil =>
    intro c acc vs c2 h hfin
    unfold evalSeq at h
    simp only [Except.ok.injEq, Prod.mk.injEq] at h
    obtain ⟨hvs, hc⟩ := h
    rw [← hvs, ← hc]
    unfold absCases absSum
    simp
  | cons bt rest ih =>
    intro c acc vs c2 h hfin
    obtain ⟨b, t⟩ := bt
    rw [evalSeq_cons] at h
    rcases hE : evaluate cfg c b with ⟨c1, w1, r1⟩
    rw [hE] at h
    cases r1 with
    | error e => exact absurd h (by simp)
    | ok v =>
      simp only [] at h
      cases hs : evalSeq cfg c1 rest with
      | error e =>
        rw [hs] at h
        exact absurd h (by simp)
      | ok p =>
        rw [hs] at h
        obtain ⟨vs1, c21⟩ := p
        simp only [Except.ok.injEq, Prod.mk.injEq] at h
        obtain ⟨hvs, hc⟩ := h
        have hvfin : v.isFin := by
          apply hfin
          rw [← hvs]
          exact List.mem_cons_self _ _
        obtain ⟨q, hq⟩ : ∃ q, v = V.fin q := by
          cases v <;> simp [V.isFin] at hvfin
          · exact ⟨_, rfl⟩
        unfold absCases
        rw [hE]
        simp only []
        rw [hq, badV_fin]
        simp only []
        have harith :
            Vadd (V.fin acc) (Vsub (V.fin M) (Vabs (Vsub (V.fin q) (V.fin t)))) =
              V.fin (acc + (M - |q - t|)) := by
          simp [Vadd, Vsub, Vabs, qadd_eq, qsub_eq, qabs_eq]
        rw [harith]
        rw [ih c1 (acc + (M - |q - t|)) vs1 c21 hs
          (by intro v1 hv1; apply hfin; rw [← hvs]; exact List.mem_cons_of_mem _ hv1)]
        rw [← hvs, ← hc]
        unfold absSum
        simp only [List.zip_cons_cons, List.map_cons, List.sum_cons]
        rw [hq]
        simp only [vq]
        rw [add_assoc]


/-- If some case value is non-finite (and none is `None`), the
absolute-fitness loop discards the partial sum and stops with fitness `0`. -/
theorem absCases_bad (cfg : Config) (M : ℚ) :
    ∀ (cases : List (List (Char × ℚ) × ℚ)) (c : Chromosome) (acc : ℚ)
      (vs : List V) (c2 : Chromosome),
      evalSeq cfg c cases = .ok (vs, c2) →
      (∀ v ∈ vs, v ≠ V.pynone) →
      (∃ v ∈ vs, v.isFin = false) →
      ∃ c3, absCases cfg M c (V.fin acc) cases = .ok (V.fin 0, c3) := by
  intro cases
  induction cases with
  | nil =>
    intro c acc vs c2 h hnp hbad
    unfold evalSeq at h
    simp only [Except.ok.injEq, Prod.mk.injEq] at h
    obtain ⟨hvs, -⟩ := h
    rw [← hvs] at hbad
    simp at hbad
  | cons bt rest ih =>
    intro c acc vs c2 h hnp hbad
    obtain ⟨b, t⟩ := bt
    rw [evalSeq_cons] at h
    rcases hE : evaluate cfg c b with ⟨c1, w1, r1⟩
    rw [hE] at h
    cases r1 with
    | error e => exact absurd h (by simp)
    | ok v =>
      simp only [] at h
      cases hs : evalSeq cfg c1 rest with
      | error e =>
        rw [hs] at h
        exact absurd h (by simp)
      | ok p =>
        rw [hs] at h
        obtain ⟨vs1, c21⟩ := p
        simp only [Except.ok.injEq, Prod.mk.injEq] at h
        obtain ⟨hvs, -⟩ := h
        by_cases hvfin : v.isFin
        · obtain ⟨q, hq⟩ : ∃ q, v = V.fin q := by
            cases v <;> simp [V.isFin] at hvfin
            · exact ⟨_, rfl⟩
          have hbad1 : ∃ v1 ∈ vs1, v1.isFin = false := by
            obtain ⟨v1, hm, hb1⟩ := hbad
            rw [← hvs] at hm
            rcases List.mem_cons.mp hm with hh | hh
            · rw [hh, hq] at hb1
              simp [V.isFin] at hb1
            · exact ⟨v1, hh, hb1⟩
          obtain ⟨c3, hc3⟩ := ih c1 (acc + (M - |q - t|)) vs1 c21 hs
            (by intro v1 hv1; apply hnp; rw [← hvs]; exact List.mem_cons_of_mem _ hv1)
            hbad1
          refine ⟨c3, ?_⟩
          unfold absCases
          rw [hE]
          simp only []
          rw [hq, badV_fin]
          simp only []
          have harith :
              Vadd (V.fin acc) (Vsub (V.fin M) (Vabs (Vsub (V.fin q) (V.fin t)))) =
                V.fin (acc + (M - |q - t|)) := by
            simp [Vadd, Vsub, Vabs, qadd_eq, qsub_eq, qabs_eq]
          rw [harith]
          exact hc3
        · have hvp : v ≠ V.pynone := by
            apply hnp
            rw [← hvs]
            exact List.mem_cons_self _ _
          refine ⟨c1, ?_⟩
          unfold absCases
          rw [hE]
          simp only []
          rw [badV_notFin v hvp (by simpa using hvfin)]
/-- When every case value is finite, the inverse-squared-error loop
accumulates `Σ (value − target)²` on top of the accumulator. -/
theorem iseCases_good (cfg : Config) :
    ∀ (cases : List (List (Char × ℚ) × ℚ)) (c : Chromosome) (acc : ℚ)
      (vs : List V) (c2 : Chromosome),
      evalSeq cfg c cases = .ok (vs, c2) →
      (∀ v ∈ vs, v.isFin) →
      iseCases cfg c (V.fin acc) cases =
        .ok (V.fin (acc + sqSum vs cases), c2) := by
  intro cases
  induction cases with
  | nil =>
    intro c acc vs c2 h hfin
    unfold evalSeq at h
    simp only [Except.ok.injEq, Prod.mk.injEq] at h
    obtain ⟨hvs, hc⟩ := h
    rw [← hvs, ← hc]
    unfold iseCases sqSum
    simp
  | cons bt rest ih =>
    intro c acc vs c2 h hfin
    obtain ⟨b, t⟩ := bt
    rw [evalSeq_cons] at h
    rcases hE : evaluate cfg c b with ⟨c1, w1, r1⟩
    rw [hE] at h
    cases r1 with
    | error e => exact absurd h (by simp)
    | ok v =>
      simp only [] at h
      cases hs : evalSeq cfg c1 rest with
      | error e =>
        rw [hs] at h
        exact absurd h (by simp)
      | ok p =>
        rw [hs] at h
        obtain ⟨vs1, c21⟩ := p
        simp only [Except.ok.injEq, Prod.mk.injEq] at h
        obtain ⟨hvs, hc⟩ := h
        have hvfin : v.isFin := by
          apply hfin
          rw [← hvs]
          exact List.mem_cons_self _ _
        obtain ⟨q, hq⟩ : ∃ q, v = V.fin q := by
          cases v <;> simp [V.isFin] at hvfin
          · exact ⟨_, rfl⟩
        unfold iseCases
        rw [hE]
        simp only []
        rw [hq, badV_fin]
        simp only []
        have harith :
            Vadd (V.fin acc) (Vmul (Vsub (V.fin q) (V.fin t)) (Vsub (V.fin q) (V.fin t))) =
              V.fin (acc + (q - t) ^ 2) := by
          simp [Vadd, Vsub, Vmul, qadd_eq, qsub_eq, qmul_eq]
          ring
        rw [harith]
        rw [ih c1 (acc + (q - t) ^ 2) vs1 c21 hs
          (by intro v1 hv1; apply hfin; rw [← hvs]; exact List.mem_cons_of_mem _ hv1)]
        rw [← hvs, ← hc]
        unfold sqSum
        simp only [List.zip_cons_cons, List.map_cons, List.sum_cons]
        rw [hq]
        simp only [vq]
        rw [add_assoc]

/-- If some case value is non-finite (and none is `None`), the
inverse-squared-error loop forces the accumulated sum to infinity. -/
theorem iseCases_bad (cfg : Config) :
    ∀ (cases : List (List (Char × ℚ) × ℚ)) (c : Chromosome) (acc : ℚ)
      (vs : List V) (c2 : Chromosome),
      evalSeq cfg c cases = .ok (vs, c2) →
      (∀ v ∈ vs, v ≠ V.pynone) →
      (∃ v ∈ vs, v.isFin = false) →
      ∃ c3, iseCases cfg c (V.fin acc) cases = .ok (V.inf, c3) := by
  intro cases
  induction cases with
  | nil =>
    intro c acc vs c2 h hnp hbad
    unfold evalSeq at h
    simp only [Except.ok.injEq, Prod.mk.injEq] at h
    obtain ⟨hvs, -⟩ := h
    rw [← hvs] at hbad
    simp at hbad
  | cons bt rest ih =>
    intro c acc vs c2 h hnp hbad
    obtain ⟨b, t⟩ := bt
    rw [evalSeq_cons] at h
    rcases hE : evaluate cfg c b with ⟨c1, w1, r1⟩
    rw [hE] at h
    cases r1 with
    | error e => exact absurd h (by simp)
    | ok v =>
      simp only [] at h
      cases hs : evalSeq cfg c1 rest with
      | error e =>
        rw [hs] at h
        exact absurd h (by simp)
      | ok p =>
        rw [hs] at h
        obtain ⟨vs1, c21⟩ := p
        simp only [Except.ok.injEq, Prod.mk.injEq] at h
        obtain ⟨hvs, -⟩ := h
        by_cases hvfin : v.isFin
        · obtain ⟨q, hq⟩ : ∃ q, v = V.fin q := by
            cases v <;> simp [V.isFin] at hvfin
            · exact ⟨_, rfl⟩
          have hbad1 : ∃ v1 ∈ vs1, v1.isFin = false := by
            obtain ⟨v1, hm, hb1⟩ := hbad
            rw [← hvs] at hm
            rcases List.mem_cons.mp hm with hh | hh
            · rw [hh, hq] at hb1
              simp [V.isFin] at hb1
            · exact ⟨v1, hh, hb1⟩
          obtain ⟨c3, hc3⟩ := ih c1 (acc + (q - t) ^ 2) vs1 c21 hs
            (by intro v1 hv1; apply hnp; rw [← hvs]; exact List.mem_cons_of_mem _ hv1)
            hbad1
          refine ⟨c3, ?_⟩
          unfold iseCases
          rw [hE]
          simp only []
          rw [hq, badV_fin]
          simp only []
          have harith :
              Vadd (V.fin acc) (Vmul (Vsub (V.fin q) (V.fin t)) (Vsub (V.fin q) (V.fin t))) =
                V.fin (acc + (q - t) ^ 2) := by
            simp [Vadd, Vsub, Vmul, qadd_eq, qsub_eq, qmul_eq]
            ring
          rw [harith]
          exact hc3
        · have hvp : v ≠ V.pynone := by
            apply hnp
            rw [← hvs]
            exact List.mem_cons_self _ _
          refine ⟨c1, ?_⟩
          unfold iseCases
          rw [hE]
          simp only []
          rw [badV_notFin v hvp (by simpa using hvfin)]

/-- The squared-error aggregate is non-negative. -/
theorem sqSum_nonneg (vs : List V) (cases : List (List (Char × ℚ) × ℚ)) :
    0 ≤ sqSum vs cases := by
  unfold sqSum
  apply List.sum_nonneg
  intro x hx
  obtain ⟨p, -, hp⟩ := List.mem_map.mp hx
  rw [← hp]
  positivity

/-- Shape of `inv_squared_error` on a single chromosome. -/
theorem iseFit_single (cfg : Config) (c : Chromosome) :
    inv_squared_error cfg [c] =
      match c.fitness with
      | some f => .ok ([f], [c])
      | none =>
        match iseCases cfg c (V.fin 0) cfg.fitness_cases with
        | .error e => .error e
        | .ok (s, c1) =>
          match Vdiv (V.fin 1) (Vadd (V.fin 1) s) with
          | .error e => .error e
          | .ok fit => .ok ([fit], [{ c1 with fitness := some fit }]) := by
  unfold inv_squared_error
  cases c.fitness with
  | some f => rfl
  | none =>
    cases iseCases cfg c (V.fin 0) cfg.fitness_cases with
    | error e => rfl
    | ok p =>
      cases Vdiv (V.fin 1) (Vadd (V.fin 1) p.1) with
      | error e => rfl
      | ok fit => rfl

/-- Closing the inverse-squared-error computation on a finite non-negative
sum: `1.0 / (1 + σ)` is the exact rational. -/
theorem vdiv_one_plus (σ : ℚ) (hσ : 0 ≤ σ) :
    Vdiv (V.fin 1) (Vadd (V.fin 1) (V.fin σ)) = .ok (V.fin (1 / (1 + σ))) := by
  have h1 : (0 : ℚ) < 1 + σ := by linarith
  have hne : (1 + σ) ≠ 0 := ne_of_gt h1
  have ha : Vadd (V.fin 1) (V.fin σ) = V.fin (1 + σ) := by
    simp [Vadd, qadd_eq]
  rw [ha]
  simp [Vdiv, hne, qdiv_eq 1 (1 + σ) hne]

/-- Claim C7: for a chromosome without a previously computed fitness,
`absolute_fitness(M, ...)` returns `Σ (M − |evaluated − target|)` over the
cases when every case value is finite, stores it, and on any non-finite case
value discards the partial sum and stores fitness `0`; with `M = 10` and the
single case `({x: 2}, 4)`, the chromosome `"+xx"` (which evaluates to exactly
4 at `x = 2`) scores exactly `10`. -/
theorem claim_C7 :
    (∀ (cfg : Config) (M : ℚ) (c : Chromosome) (vs : List V) (c2 : Chromosome),
      c.fitness = none →
      evalSeq cfg c cfg.fitness_cases = .ok (vs, c2) →
      (∀ v ∈ vs, v ≠ V.pynone) →
      ((∀ v ∈ vs, v.isFin) →
        absolute_fitness cfg M [c] =
          .ok ([V.fin (absSum M vs cfg.fitness_cases)],
            [{ c2 with fitness := some (V.fin (absSum M vs cfg.fitness_cases)) }])) ∧
      ((∃ v ∈ vs, v.isFin = false) →
        ∃ c3, absolute_fitness cfg M [c] = .ok ([V.fin 0], [c3]) ∧
          c3.fitness = some (V.fin 0))) ∧
    (absolute_fitness cfgEx 10 [cEx]).map Prod.fst = .ok [V.fin 10] := by
  constructor
  · intro cfg M c vs c2 hfit hseq hnp
    constructor
    · intro hfin
      have h := absCases_good cfg M cfg.fitness_cases c 0 vs c2 hseq hfin
      rw [zero_add] at h
      rw [absFit_single, hfit]
      simp only []
      rw [h]
    · intro hbad
      obtain ⟨c3, hc3⟩ := absCases_bad cfg M cfg.fitness_cases c 0 vs c2 hseq hnp hbad
      refine ⟨{ c3 with fitness := some (V.fin 0) }, ?_, rfl⟩
      rw [absFit_single, hfit]
      simp only []
      rw [hc3]
  · decide

/-- Witness for C7's general part: the concrete run on `cfgEx`/`cEx` with its
single case value `4`. -/
theorem claim_C7_witness :
    absolute_fitness cfgEx 10 [cEx] =
      .ok ([V.fin (absSum 10 [V.fin 4] cfgEx.fitness_cases)],
        [{ (⟨[['+', 'x', 'x']],
            [Tree.node '+' [Tree.node 'x' [], Tree.node 'x' []]],
            [([('x', 2)], V.fin 4)], none, [0, 0, 0]⟩ : Chromosome) with
          fitness := some (V.fin (absSum 10 [V.fin 4] cfgEx.fitness_cases)) }]) :=
  (claim_C7.1 cfgEx 10 cEx [V.fin 4]
    ⟨[['+', 'x', 'x']],
      [Tree.node '+' [Tree.node 'x' [], Tree.node 'x' []]],
      [([('x', 2)], V.fin 4)], none, [0, 0, 0]⟩
    rfl (by rfl) (by decide)).1 (by decide)

/-- Counterexample to C6 as stated: the chromosome `"/xx"` divides by zero on
the case `({x: 0}, 4)`, and its inverse-squared-error fitness is exactly `0`,
which lies outside the claimed open-closed range `(0, 1]`. -/
theorem claim_C6_counterexample :
    cDiv.fitness = none ∧
    (inv_squared_error cfgEx0 [cDiv]).map Prod.fst = .ok [V.fin 0] ∧
    ¬ ((0 : ℚ) < 0) := by
  refine ⟨rfl, by decide, by norm_num⟩

/-- Claim C6 as amended: for a chromosome without a previously computed
fitness, `inv_squared_error` returns `1 / (1 + Σ (evaluated − target)²)`,
which lies in `(0, 1]` whenever every case value is finite; on any non-real or
non-finite case value the sum is forced to infinity and the fitness is exactly
`1 / (1 + ∞) = 0` — so over all chromosomes the range is `[0, 1]`, with `0`
attained precisely through the bad-case path. -/
theorem claim_C6 :
    ∀ (cfg : Config) (c : Chromosome) (vs : List V) (c2 : Chromosome),
      c.fitness = none →
      evalSeq cfg c cfg.fitness_cases = .ok (vs, c2) →
      (∀ v ∈ vs, v ≠ V.pynone) →
      ((∀ v ∈ vs, v.isFin) →
        inv_squared_error cfg [c] =
          .ok ([V.fin (1 / (1 + sqSum vs cfg.fitness_cases))],
            [{ c2 with
                fitness := some (V.fin (1 / (1 + sqSum vs cfg.fitness_cases))) }]) ∧
        0 < 1 / (1 + sqSum vs cfg.fitness_cases) ∧
        1 / (1 + sqSum vs cfg.fitness_cases) ≤ 1) ∧
      ((∃ v ∈ vs, v.isFin = false) →
        ∃ c3, inv_squared_error cfg [c] = .ok ([V.fin 0], [c3]) ∧
          c3.fitness = some (V.fin 0)) := by
  intro cfg c vs c2 hfit hseq hnp
  have hσ : 0 ≤ sqSum vs cfg.fitness_cases := sqSum_nonneg vs cfg.fitness_cases
  have h1 : (0 : ℚ) < 1 + sqSum vs cfg.fitness_cases := by linarith
  constructor
  · intro hfin
    have h := iseCases_good cfg cfg.fitness_cases c 0 vs c2 hseq hfin
    rw [zero_add] at h
    refine ⟨?_, div_pos one_pos h1, (div_le_one h1).mpr (by linarith)⟩
    rw [iseFit_single, hfit]
    simp only []
    rw [h]
    simp only []
    rw [vdiv_one_plus (sqSum vs cfg.fitness_cases) hσ]
  · intro hbad
    obtain ⟨c3, hc3⟩ := iseCases_bad cfg cfg.fitness_cases c 0 vs c2 hseq hnp hbad
    refine ⟨{ c3 with fitness := some (V.fin 0) }, ?_, rfl⟩
    rw [iseFit_single, hfit]
    simp only []
    rw [hc3]
    simp only []
    have : Vdiv (V.fin 1) (Vadd (V.fin 1) V.inf) = .ok (V.fin 0) := rfl
    rw [this]

/-- Witness for the amended C6: the concrete run on `cfgEx`/`cEx` whose only
case value is the finite `4` with zero error. -/
theorem claim_C6_witness :
    inv_squared_error cfgEx [cEx] =
      .ok ([V.fin (1 / (1 + sqSum [V.fin 4] cfgEx.fitness_cases))],
        [{ (⟨[['+', 'x', 'x']],
            [Tree.node '+' [Tree.node 'x' [], Tree.node 'x' []]],
            [([('x', 2)], V.fin 4)], none, [0, 0, 0]⟩ : Chromosome) with
          fitness :=
            some (V.fin (1 / (1 + sqSum [V.fin 4] cfgEx.fitness_cases))) }]) ∧
    0 < 1 / (1 + sqSum [V.fin 4] cfgEx.fitness_cases) ∧
    1 / (1 + sqSum [V.fin 4] cfgEx.fitness_cases) ≤ 1 :=
  (claim_C6 cfgEx cEx [V.fin 4]
    ⟨[['+', 'x', 'x']],
      [Tree.node '+' [Tree.node 'x' [], Tree.node 'x' []]],
      [([('x', 2)], V.fin 4)], none, [0, 0, 0]⟩
    rfl (by rfl) (by decide)).1 (by decide)

/-! ### Claim C8 — frame effects of linking and evaluation -/

theorem hUpd_length (h : Heap) (i : Nat) (f : ANode → ANode) :
    (hUpd h i f).length = h.length := by
  induction h generalizing i with
  | nil => rfl
  | cons n r ih =>
    cases i with
    | zero => rfl
    | succ j => simp [hUpd, ih]

theorem hUpd_get_ne (h : Heap) (i j : Nat) (f : ANode → ANode) (hne : j ≠ i) :
    (hUpd h i f).get? j = h.get? j := by
  induction h generalizing i j with
  | nil => rfl
  | cons n r ih =>
    cases i with
    | zero =>
      cases j with
      | zero => exact absurd rfl hne
      | succ j1 => rfl
    | succ i1 =>
      cases j with
      | zero => rfl
      | succ j1 =>
        simp only [hUpd, List.get?_cons_succ]
        exact ih i1 j1 (fun he => hne (by rw [he]))

theorem hUpd_get_eq (h : Heap) (i : Nat) (f : ANode → ANode) :
    (hUpd h i f).get? i = (h.get? i).map f := by
  induction h generalizing i with
  | nil => rfl
  | cons n r ih =>
    cases i with
    | zero => rfl
    | succ j =>
      simp only [hUpd, List.get?_cons_succ]
      exact ih j

theorem setParent_length (h : Heap) (child p : Nat) :
    (setParent h child p).length = h.length := by
  unfold setParent
  cases h.get? child with
  | none => simp [hUpd_length]
  | some n =>
    obtain ⟨nm, pr, kd⟩ := n
    cases pr with
    | none => simp [hUpd_length]
    | some op => simp [hUpd_length]

/-- `setParent` on a currently parentless child is just the two writes:
set the child's parent, append the child to the new parent's children. -/
theorem setParent_parentless (h : Heap) (child p : Nat) (n : ANode)
    (hc : h.get? child = some n) (hp : n.parent = none) :
    setParent h child p =
      hUpd (hUpd h child (fun m => { m with parent := some p })) p
        (fun m => { m with kids := m.kids ++ [child] }) := by
  unfold setParent
  rw [hc]
  simp only []
  rw [hp]

/-- Effect of the attach loop `for tree in args: tree.parent = root` on a heap
where every argument is parentless and distinct from the root: lengths are
preserved, other nodes are untouched, each argument's node merely gains the
root as parent, and the root keeps its own parent. -/
theorem linkFold_frame (R origLen : Nat) :
    ∀ (args : List Nat) (hh : Heap),
      origLen ≤ R → R < hh.length →
      (∀ a ∈ args, a < origLen ∧ ∃ n, hh.get? a = some n ∧ n.parent = none) →
      args.Nodup →
      (args.foldl (fun acc a => setParent acc a R) hh).length = hh.length ∧
      (∀ i, i ≠ R → i ∉ args →
        (args.foldl (fun acc a => setParent acc a R) hh).get? i = hh.get? i) ∧
      (∀ a ∈ args, ∃ n, hh.get? a = some n ∧
        (args.foldl (fun acc a => setParent acc a R) hh).get? a =
          some { n with parent := some R }) ∧
      (∀ rn, hh.get? R = some rn →
        ∃ m, (args.foldl (fun acc a => setParent acc a R) hh).get? R = some m ∧
          m.parent = rn.parent) := by
  intro args
  induction args with
  | nil =>
    intro hh hor hR hpl hnd
    exact ⟨rfl, fun i _ _ => rfl, by simp, fun rn hrn => ⟨rn, hrn, rfl⟩⟩
  | cons a as ih =>
    intro hh hor hR hpl hnd
    obtain ⟨haor, n, hn, hnp⟩ := hpl a (List.mem_cons_self _ _)
    have haR : a ≠ R := Nat.ne_of_lt (Nat.lt_of_lt_of_le haor hor)
    have hsp : setParent hh a R =
        hUpd (hUpd hh a (fun m => { m with parent := some R })) R
          (fun m => { m with kids := m.kids ++ [a] }) :=
      setParent_parentless hh a R n hn hnp
    have hlen1 : (setParent hh a R).length = hh.length := setParent_length hh a R
    have hga : (setParent hh a R).get? a = some { n with parent := some R } := by
      rw [hsp, hUpd_get_ne _ R a _ haR, hUpd_get_eq, hn]
      rfl
    have hgother : ∀ i, i ≠ R → i ≠ a → (setParent hh a R).get? i = hh.get? i := by
      intro i hiR hia
      rw [hsp, hUpd_get_ne _ R i _ hiR, hUpd_get_ne _ a i _ hia]
    have hgroot : ∀ rn, hh.get? R = some rn →
        ∃ m, (setParent hh a R).get? R = some m ∧ m.parent = rn.parent := by
      intro rn hrn
      rw [hsp, hUpd_get_eq, hUpd_get_ne _ a R _ (fun he => haR he.symm), hrn]
      exact ⟨_, rfl, rfl⟩
    have hnd1 : as.Nodup := (List.nodup_cons.mp hnd).2
    have hna : a ∉ as := (List.nodup_cons.mp hnd).1
    have hplas : ∀ b ∈ as, b < origLen ∧
        ∃ m, (setParent hh a R).get? b = some m ∧ m.parent = none := by
      intro b hb
      obtain ⟨hbor, m, hm, hmp⟩ := hpl b (List.mem_cons_of_mem _ hb)
      refine ⟨hbor, m, ?_, hmp⟩
      rw [hgother b (Nat.ne_of_lt (Nat.lt_of_lt_of_le hbor hor))
        (fun he => hna (he ▸ hb))]
      exact hm
    obtain ⟨ihlen, ihframe, ihargs, ihroot⟩ :=
      ih (setParent hh a R) hor (by rw [hlen1]; exact hR) hplas hnd1
    simp only [List.foldl_cons]
    refine ⟨by rw [ihlen, hlen1], ?_, ?_, ?_⟩
    · intro i hiR hias
      have hia : i ≠ a := fun he => hias (he ▸ List.mem_cons_self _ _)
      have hinas : i ∉ as := fun hm => hias (List.mem_cons_of_mem _ hm)
      rw [ihframe i hiR hinas, hgother i hiR hia]
    · intro b hb
      rcases List.mem_cons.mp hb with hba | hbas
      · subst hba
        refine ⟨n, hn, ?_⟩
        rw [ihframe b haR hna]
        exact hga
      · obtain ⟨m, hm1, hm2⟩ := ihargs b hbas
        obtain ⟨hbor, m0, hm0, -⟩ := hpl b (List.mem_cons_of_mem _ hbas)
        have : (setParent hh a R).get? b = hh.get? b :=
          hgother b (Nat.ne_of_lt (Nat.lt_of_lt_of_le hbor hor))
            (fun he => hna (he ▸ hbas))
        rw [this] at hm1
        exact ⟨m, hm1, hm2⟩
    · intro rn hrn
      obtain ⟨m, hm1, hm2⟩ := hgroot rn hrn
      obtain ⟨m2, hm21, hm22⟩ := ihroot m hm1
      exact ⟨m2, hm21, by rw [hm22, hm2]⟩

theorem linkRecA_succ (lf : Char) (nargs fuel : Nat) (h : Heap) (args : List Nat) :
    linkRecA lf nargs (fuel + 1) h args =
      if args.length = nargs then
        some (args.foldl (fun acc a => setParent acc a h.length)
          (h ++ [⟨lf, none, []⟩]), h.length)
      else
        match linkRecA lf nargs fuel (h ++ [⟨lf, none, []⟩]) (args.take nargs) with
        | none => none
        | some (h2, t) => linkRecA lf nargs fuel h2 (t :: args.drop nargs) := rfl

/-- Frame property of `link_recursive` over the heap: with parentless,
distinct argument roots, every pre-existing non-argument node is untouched,
every argument root only has its parent redirected to a freshly allocated
node, and the returned root is fresh and parentless. -/
theorem linkRecA_frame (lf : Char) (nargs : Nat) :
    ∀ (fuel : Nat) (h : Heap) (args : List Nat) (h2 : Heap) (r : Nat),
      (∀ a ∈ args, a < h.length ∧ ∃ n, h.get? a = some n ∧ n.parent = none) →
      args.Nodup →
      linkRecA lf nargs fuel h args = some (h2, r) →
      h.length ≤ h2.length ∧
      (∀ i, i < h.length → i ∉ args → h2.get? i = h.get? i) ∧
      (∀ a ∈ args, ∃ n p, h.get? a = some n ∧ h.length ≤ p ∧
        h2.get? a = some { n with parent := some p }) ∧
      (∃ rn, h2.get? r = some rn ∧ rn.parent = none ∧ h.length ≤ r ∧ r < h2.length) := by
  intro fuel
  induction fuel with
  | zero =>
    intro h args h2 r hpl hnd heq
    exact absurd heq (by simp [linkRecA])
  | succ f ih =>
    intro h args h2 r hpl hnd heq
    have hhlen : (h ++ [(⟨lf, none, []⟩ : ANode)]).length = h.length + 1 := by
      simp
    have hget : ∀ i, i < h.length →
        (h ++ [(⟨lf, none, []⟩ : ANode)]).get? i = h.get? i := by
      intro i hi
      exact List.get?_append hi
    rw [linkRecA_succ] at heq
    by_cases hlen : args.length = nargs
    · rw [if_pos hlen] at heq
      simp only [Option.some.injEq, Prod.mk.injEq] at heq
      obtain ⟨hh2, hr⟩ := heq
      have hpl2 : ∀ a ∈ args, a < h.length ∧
          ∃ n, (h ++ [(⟨lf, none, []⟩ : ANode)]).get? a = some n ∧ n.parent = none := by
        intro a ha
        obtain ⟨hb, n, hn, hp⟩ := hpl a ha
        exact ⟨hb, n, by rw [hget a hb]; exact hn, hp⟩
      obtain ⟨flen, fframe, fargs, froot⟩ :=
        linkFold_frame h.length h.length args (h ++ [⟨lf, none, []⟩])
          (Nat.le_refl _) (by rw [hhlen]; exact Nat.lt_succ_self _) hpl2 hnd
      rw [← hh2, ← hr]
      refine ⟨?_, ?_, ?_, ?_⟩
      · rw [flen, hhlen]
        exact Nat.le_succ _
      · intro i hi hia
        rw [fframe i (Nat.ne_of_lt hi) hia]
        exact hget i hi
      · intro a ha
        obtain ⟨n, hn, hfa⟩ := fargs a ha
        obtain ⟨hb, -⟩ := hpl a ha
        rw [hget a hb] at hn
        exact ⟨n, h.length, hn, Nat.le_refl _, hfa⟩
      · obtain ⟨m, hm, hmp⟩ := froot ⟨lf, none, []⟩ (List.get?_concat_length h _)
        exact ⟨m, hm, hmp, Nat.le_refl _, by rw [flen, hhlen]; exact Nat.lt_succ_self _⟩
    · rw [if_neg hlen] at heq
      cases hmideq : linkRecA lf nargs f (h ++ [⟨lf, none, []⟩]) (args.take nargs) with
      | none =>
        rw [hmideq] at heq
        exact absurd heq (by simp)
      | some p =>
        rw [hmideq] at heq
        obtain ⟨hm, t⟩ := p
        simp only [] at heq
        have hdisj : List.Disjoint (args.take nargs) (args.drop nargs) := by
          apply List.disjoint_of_nodup_append
          rw [List.take_append_drop]
          exact hnd
        have hpl1 : ∀ a ∈ args.take nargs,
            a < (h ++ [(⟨lf, none, []⟩ : ANode)]).length ∧
            ∃ n, (h ++ [(⟨lf, none, []⟩ : ANode)]).get? a = some n ∧
              n.parent = none := by
          intro a ha
          obtain ⟨hb, n, hn, hp⟩ := hpl a (List.mem_of_mem_take ha)
          refine ⟨by rw [hhlen]; exact Nat.lt_succ_of_lt hb, n, ?_, hp⟩
          rw [hget a hb]
          exact hn
        obtain ⟨len1, frame1, args1, rn1, hrn1, hrn1p, ht1, ht2⟩ :=
          ih (h ++ [⟨lf, none, []⟩]) (args.take nargs) hm t hpl1
            ((List.take_sublist _ _).nodup hnd) hmideq
        have hmlen : h.length + 1 ≤ hm.length := by
          rw [← hhlen]
          exact len1
        have hdropmem : ∀ b ∈ args.drop nargs, b < h.length ∧
            ∃ n, hm.get? b = some n ∧ n.parent = none := by
          intro b hb
          obtain ⟨hblt, n, hn, hp⟩ := hpl b (List.mem_of_mem_drop hb)
          refine ⟨hblt, n, ?_, hp⟩
          rw [frame1 b (by rw [hhlen]; exact Nat.lt_succ_of_lt hblt)
            (fun hmem => hdisj hmem hb), hget b hblt]
          exact hn
        have hpl3 : ∀ a ∈ t :: args.drop nargs, a < hm.length ∧
            ∃ n, hm.get? a = some n ∧ n.parent = none := by
          intro a ha
          rcases List.mem_cons.mp ha with hat | had
          · subst hat
            exact ⟨ht2, rn1, hrn1, hrn1p⟩
          · obtain ⟨hblt, n, hn, hp⟩ := hdropmem a had
            exact ⟨Nat.lt_of_lt_of_le hblt (Nat.le_trans (Nat.le_succ _) hmlen),
              n, hn, hp⟩
        have hnd3 : (t :: args.drop nargs).Nodup := by
          rw [List.nodup_cons]
          refine ⟨?_, (List.drop_sublist _ _).nodup hnd⟩
          intro hmem
          obtain ⟨hblt, -⟩ := hdropmem t hmem
          have : h.length + 1 ≤ t := by
            rw [← hhlen]
            exact ht1
          exact Nat.lt_irrefl t (Nat.lt_of_lt_of_le (Nat.lt_succ_of_lt hblt) this)
        obtain ⟨len2, frame2, args2, rn2, hrn2, hrn2p, hr1, hr2⟩ :=
          ih hm (t :: args.drop nargs) h2 r hpl3 hnd3 heq
        have hlen12 : h.length ≤ hm.length := Nat.le_trans (Nat.le_succ _) hmlen
        refine ⟨Nat.le_trans hlen12 len2, ?_, ?_, ?_⟩
        · intro i hi hia
          have hit : i ≠ t := by
            intro he
            have : h.length + 1 ≤ t := by rw [← hhlen]; exact ht1
            exact Nat.lt_irrefl i (Nat.lt_of_lt_of_le (Nat.lt_succ_of_lt hi)
              (he ▸ this))
          have hidrop : i ∉ args.drop nargs :=
            fun hmem => hia (List.mem_of_mem_drop hmem)
          have hitake : i ∉ args.take nargs :=
            fun hmem => hia (List.mem_of_mem_take hmem)
          rw [frame2 i (Nat.lt_of_lt_of_le hi hlen12)
            (by intro hmem; rcases List.mem_cons.mp hmem with hh1 | hh1
                exacts [hit hh1, hidrop hh1]),
            frame1 i (by rw [hhlen]; exact Nat.lt_succ_of_lt hi) hitake,
            hget i hi]
        · intro a ha
          have := List.take_append_drop nargs args
          have hamem : a ∈ args.take nargs ++ args.drop nargs := by
            rw [this]
            exact ha
          rcases List.mem_append.mp hamem with hat | had
          · obtain ⟨n, p1, hn, hp1, hma⟩ := args1 a hat
            obtain ⟨hblt, -⟩ := hpl a (List.mem_of_mem_take hat)
            rw [hget a hblt] at hn
            have hat2 : a ∉ t :: args.drop nargs := by
              intro hmem
              rcases List.mem_cons.mp hmem with hh1 | hh1
              · have : h.length + 1 ≤ t := by rw [← hhlen]; exact ht1
                exact Nat.lt_irrefl a
                  (Nat.lt_of_lt_of_le (Nat.lt_succ_of_lt hblt) (hh1 ▸ this))
              · exact hdisj hat hh1
            rw [← frame2 a (Nat.lt_of_lt_of_le hblt hlen12) hat2] at hma
            exact ⟨n, p1, hn, by rw [hhlen] at hp1; omega, hma⟩
          · obtain ⟨n, p2, hn, hp2, hma⟩ :=
              args2 a (List.mem_cons_of_mem _ had)
            obtain ⟨hblt, -⟩ := hdropmem a had
            have hmha : hm.get? a = h.get? a := by
              rw [frame1 a (by rw [hhlen]; exact Nat.lt_succ_of_lt hblt)
                (fun hmem => hdisj hmem had), hget a hblt]
            rw [hmha] at hn
            exact ⟨n, p2, hn, Nat.le_trans hlen12 hp2, hma⟩
        · exact ⟨rn2, hrn2, hrn2p, Nat.le_trans hlen12 hr1, hr2⟩

/-- Counterexample to C8 as stated: linking the two single-node argument trees
`a`, `b` rewrites each argument root's parent back-reference (from `none` to
the fresh root's index), so argument-tree nodes are modified. -/
theorem claim_C8_counterexample :
    linkA cfgEx [⟨'a', none, []⟩, ⟨'b', none, []⟩] [0, 1] =
      .ok ([⟨'a', some 2, []⟩, ⟨'b', some 2, []⟩, ⟨'+', none, [0, 1]⟩], 2) ∧
    (⟨'a', some 2, []⟩ : ANode) ≠ ⟨'a', none, []⟩ := by
  exact ⟨rfl, by decide⟩

/-- Claim C8 as amended: linking and evaluation are deterministic state
transformers with a bounded frame — `link` redirects each (parentless,
distinct) argument root's parent back-reference to a freshly allocated node
and leaves the name, children and every other pre-existing node untouched;
`evaluate` never changes anything outside the chromosome's own `trees` and
`evaluation_cache` (the ephemeral-constant cursor is per-call state). -/
theorem claim_C8 :
    (∀ (cfg : Config) (h : Heap) (args : List Nat) (h2 : Heap) (r : Nat),
      (∀ a ∈ args, a < h.length ∧ ∃ n, h.get? a = some n ∧ n.parent = none) →
      args.Nodup →
      linkA cfg h args = .ok (h2, r) →
      h.length ≤ h2.length ∧
      (∀ i, i < h.length → i ∉ args → h2.get? i = h.get? i) ∧
      (∀ a ∈ args, ∃ n p, h.get? a = some n ∧ h.length ≤ p ∧
        h2.get? a = some { n with parent := some p })) ∧
    (∀ (cfg : Config) (c : Chromosome) (tv : List (Char × ℚ)) (c1 : Chromosome)
        (w : EvalWork) (res : Except PyErr V),
      evaluate cfg c tv = (c1, w, res) →
      c1.genes = c.genes ∧ c1.fitness = c.fitness ∧
        c1.ephemeral_random_constants = c.ephemeral_random_constants) := by
  constructor
  · intro cfg h args h2 r hpl hnd heq
    unfold linkA at heq
    cases hlf : cfg.linking_function with
    | none =>
      rw [hlf] at heq
      exact absurd heq (by simp)
    | some lf =>
      rw [hlf] at heq
      simp only [] at heq
      cases hfd : alookup cfg.functions lf with
      | none =>
        rw [hfd] at heq
        exact absurd heq (by simp)
      | some fd =>
        rw [hfd] at heq
        simp only [] at heq
        cases hlr : linkRecA lf fd.args (args.length + 2) h args with
        | none =>
          rw [hlr] at heq
          exact absurd heq (by simp)
        | some p =>
          rw [hlr] at heq
          simp only [Except.ok.injEq] at heq
          rw [heq] at hlr
          obtain ⟨hle, hframe, hargs, -⟩ :=
            linkRecA_frame lf fd.args (args.length + 2) h args h2 r hpl hnd hlr
          exact ⟨hle, hframe, hargs⟩
  · intro cfg c tv c1 w res h
    rw [evaluate_eq] at h
    cases hlk : vlookup c.values (sortKeys tv) with
    | some v =>
      rw [hlk] at h
      simp only [Prod.mk.injEq] at h
      obtain ⟨hc, -⟩ := h
      rw [← hc]
      exact ⟨rfl, rfl, rfl⟩
    | none =>
      rw [hlk] at h
      simp only [] at h
      cases hb : (if c.trees.isEmpty then buildTrees cfg c.genes else .ok c.trees) with
      | error e =>
        rw [hb] at h
        simp only [Prod.mk.injEq] at h
        obtain ⟨hc, -⟩ := h
        rw [← hc]
        exact ⟨rfl, rfl, rfl⟩
      | ok trees =>
        rw [hb] at h
        simp only [] at h
        cases hl : (if cfg.num_genes > 1 then link cfg trees
                    else match trees.head? with
                         | some t => .ok t
                         | none => .error .indexErr) with
        | error e =>
          rw [hl] at h
          simp only [Prod.mk.injEq] at h
          obtain ⟨hc, -⟩ := h
          rw [← hc]
          exact ⟨rfl, rfl, rfl⟩
        | ok et =>
          rw [hl] at h
          simp only [] at h
          unfold settle at h
          cases hr : inorder cfg c.ephemeral_random_constants tv pyStack et 0 with
          | ok p =>
            rw [hr] at h
            obtain ⟨pv, pi, pa⟩ := p
            simp only [Prod.mk.injEq] at h
            obtain ⟨hc, -⟩ := h
            rw [← hc]
            exact ⟨rfl, rfl, rfl⟩
          | error e =>
            rw [hr] at h
            cases e <;>
              (simp only [Prod.mk.injEq] at h
               obtain ⟨hc, -⟩ := h
               rw [← hc]
               exact ⟨rfl, rfl, rfl⟩)

/-- Witness for the amended C8 at the two-leaf heap and the concrete
evaluation of `"+xx"`. -/
theorem claim_C8_witness :
    (([⟨'a', none, []⟩, ⟨'b', none, []⟩] : Heap).length ≤
        ([⟨'a', some 2, []⟩, ⟨'b', some 2, []⟩, ⟨'+', none, [0, 1]⟩] : Heap).length ∧
      (∀ i, i < ([⟨'a', none, []⟩, ⟨'b', none, []⟩] : Heap).length →
        i ∉ [0, 1] →
        ([⟨'a', some 2, []⟩, ⟨'b', some 2, []⟩, ⟨'+', none, [0, 1]⟩] : Heap).get? i =
          ([⟨'a', none, []⟩, ⟨'b', none, []⟩] : Heap).get? i) ∧
      (∀ a ∈ [0, 1], ∃ n p,
        ([⟨'a', none, []⟩, ⟨'b', none, []⟩] : Heap).get? a = some n ∧
        ([⟨'a', none, []⟩, ⟨'b', none, []⟩] : Heap).length ≤ p ∧
        ([⟨'a', some 2, []⟩, ⟨'b', some 2, []⟩, ⟨'+', none, [0, 1]⟩] : Heap).get? a =
          some { n with parent := some p })) ∧
    ((evaluate cfgEx cEx [('x', 2)]).1.genes = cEx.genes ∧
      (evaluate cfgEx cEx [('x', 2)]).1.fitness = cEx.fitness ∧
      (evaluate cfgEx cEx [('x', 2)]).1.ephemeral_random_constants =
        cEx.ephemeral_random_constants) := by
  constructor
  · exact claim_C8.1 cfgEx [⟨'a', none, []⟩, ⟨'b', none, []⟩] [0, 1]
      [⟨'a', some 2, []⟩, ⟨'b', some 2, []⟩, ⟨'+', none, [0, 1]⟩] 2
      (by
        intro a ha
        fin_cases ha
        · exact ⟨by decide, ⟨'a', none, []⟩, rfl, rfl⟩
        · exact ⟨by decide, ⟨'b', none, []⟩, rfl, rfl⟩)
      (by decide) rfl
  · exact claim_C8.2 cfgEx cEx [('x', 2)] (evaluate cfgEx cEx [('x', 2)]).1
      (evaluate cfgEx cEx [('x', 2)]).2.1 (evaluate cfgEx cEx [('x', 2)]).2.2 rfl

/-! ### Claims C1 and C10 — decoding -/

theorem stripSuffix_length (cfg : Config) :
    ∀ (rest : List (List Char)) (off : Nat),
      (stripSuffix cfg rest off).length = rest.length := by
  intro rest
  induction rest with
  | nil => intro off; rfl
  | cons l r ih =>
    intro off
    simp [stripSuffix, ih]

theorem stripSuffix_cons (cfg : Config) (l : List Char) (rest : List (List Char))
    (off : Nat) :
    stripSuffix cfg (l :: rest) off =
      l.drop off :: stripSuffix cfg rest (aritySum cfg (l.take off)) := rfl

theorem stripSuffix_zero (cfg : Config) :
    ∀ rest : List (List Char), stripSuffix cfg rest 0 = rest := by
  intro rest
  induction rest with
  | nil => rfl
  | cons l r ih =>
    unfold stripSuffix
    simp [aritySum, ih]

theorem get?_append_self {α : Type} (P : List α) (x : α) (Y : List α) :
    (P ++ (x :: Y)).get? P.length = some x := by
  induction P with
  | nil => rfl
  | cons p ps ih => simpa using ih

theorem updLevel_append (P : List (List Char)) (a b : List Char)
    (Z : List (List Char)) (k : Nat) :
    updLevel (P ++ (a :: b :: Z)) (P.length + 1) k = P ++ (a :: b.drop k :: Z) := by
  induction P with
  | nil => rfl
  | cons p ps ih => simpa [updLevel] using ih

theorem aritySum_append (cfg : Config) (l1 l2 : List Char) :
    aritySum cfg (l1 ++ l2) = aritySum cfg l1 + aritySum cfg l2 := by
  simp [aritySum]

theorem aritySum_take_succ (cfg : Config) (l : List Char) (pos : Nat) (c : Char)
    (hc : l.get? pos = some c) :
    aritySum cfg (l.take (pos + 1)) = aritySum cfg (l.take pos) + argsOf cfg c := by
  rw [List.get?_eq_getElem?] at hc
  rw [List.take_succ, hc]
  simp [aritySum_append, aritySum]

theorem aritySum_take_le (cfg : Config) (l : List Char) (m : Nat) :
    aritySum cfg (l.take m) ≤ aritySum cfg l := by
  conv_rhs => rw [← List.take_append_drop m l]
  rw [aritySum_append]
  exact Nat.le_add_right _ _

theorem completeB_pair (cfg : Config) (l l2 : List Char) (r : List (List Char))
    (h : completeB cfg (l :: l2 :: r) = true) :
    l2.length = aritySum cfg l ∧ completeB cfg (l2 :: r) = true := by
  unfold completeB at h
  simp only [Bool.and_eq_true, decide_eq_true_eq] at h
  exact h

theorem completeB_tail (cfg : Config) (l : List Char) (r : List (List Char))
    (h : completeB cfg (l :: r) = true) : completeB cfg r = true := by
  cases r with
  | nil => rfl
  | cons l2 r2 => exact (completeB_pair cfg l l2 r2 h).2

/-- The decoding workhorse: on complete levels, `grab_children` succeeds, its
destructive slicing of the levels state is exactly the canonical cascade
(`stripSuffix`/`postG`), and the children it assigns are exactly those of the
specification relation `SpecNode`/`SpecRow` (each node takes the next
`arity` not-yet-assigned symbols of the level below, left to right). -/
theorem grab_spec (cfg : Config) : ∀ fuel : Nat,
    (∀ (name : Char) (off : Nat) (P rest : List (List Char)),
      completeB cfg rest = true →
      wt rest < fuel →
      (∀ l rest2, rest = l :: rest2 → off + argsOf cfg name ≤ l.length) →
      ∃ kids,
        grabChildren cfg fuel name P.length (P ++ stripSuffix cfg rest off) =
          .ok (kids, postG cfg P rest off (argsOf cfg name)) ∧
        SpecNode cfg rest name off (Tree.node name kids)) ∧
    (∀ (todo i off : Nat) (P : List (List Char)) (l : List Char)
        (rest2 : List (List Char)),
      completeB cfg (l :: rest2) = true →
      todo + wt rest2 < fuel →
      off + i + todo ≤ l.length →
      ∃ ts,
        grabLoop cfg fuel P.length
            (P ++ (l.drop off ::
              stripSuffix cfg rest2 (aritySum cfg (l.take (off + i)))))
            todo i =
          .ok (ts, P ++ (l.drop off ::
            stripSuffix cfg rest2 (aritySum cfg (l.take (off + i + todo))))) ∧
        SpecRow cfg l rest2 (off + i) todo ts) := by
  intro fuel
  induction fuel with
  | zero =>
    constructor
    · intro name off P rest hcomp hf hava
      exact absurd hf (Nat.not_lt_zero _)
    · intro todo i off P l rest2 hcomp hf havail
      exact absurd hf (Nat.not_lt_zero _)
  | succ f ih =>
    constructor
    · intro name off P rest hcomp hf hava
      cases rest with
      | nil =>
        refine ⟨[], ?_, SpecNode.bottom name off⟩
        rw [grabChildren_succ]
        unfold stripSuffix postG
        simp
      | cons l rest2 =>
        have hava1 : off + argsOf cfg name ≤ l.length := hava l rest2 rfl
        have hfl : argsOf cfg name + wt rest2 < f := by
          have h1 : argsOf cfg name ≤ l.length := by omega
          unfold wt at hf
          omega
        have havl : off + 0 + argsOf cfg name ≤ l.length := by omega
        obtain ⟨ts, hrun, hrow⟩ := ih.2 (argsOf cfg name) 0 off P l rest2 hcomp hfl havl
        refine ⟨ts, ?_, SpecNode.deep l rest2 name off ts (by simpa using hrow)⟩
        rw [grabChildren_succ]
        rw [if_pos (by
          simp only [stripSuffix, List.length_append, List.length_cons]
          omega)]
        unfold stripSuffix postG
        simpa using hrun
    · intro todo i off P l rest2 hcomp hf havail
      cases todo with
      | zero =>
        refine ⟨[], ?_, SpecRow.nil l rest2 (off + i)⟩
        rw [grabLoop_succ_zero]
        rfl
      | succ todo1 =>
        have hoi : off + i < l.length := by omega
        obtain ⟨c, hc⟩ : ∃ c, l.get? (off + i) = some c := by
          cases hg : l.get? (off + i) with
          | none =>
            rw [List.get?_eq_none] at hg
            omega
          | some c => exact ⟨c, rfl⟩
        have hcomp2 : completeB cfg rest2 = true := completeB_tail cfg l rest2 hcomp
        have hfw : wt rest2 < f := by omega
        have hava2 : ∀ l2 rest3, rest2 = l2 :: rest3 →
            aritySum cfg (l.take (off + i)) + argsOf cfg c ≤ l2.length := by
          intro l2 rest3 hr2
          rw [hr2] at hcomp
          obtain ⟨hl2, -⟩ := completeB_pair cfg l l2 rest3 hcomp
          rw [hl2, ← aritySum_take_succ cfg l (off + i) c hc]
          exact aritySum_take_le cfg l (off + i + 1)
        obtain ⟨kids, hkids, hnode⟩ :=
          ih.1 c (aritySum cfg (l.take (off + i))) (P ++ [l.drop off]) rest2
            hcomp2 hfw hava2
        rw [grabLoop_succ_succ]
        rw [get?_append_self]
        simp only []
        rw [List.get?_drop, hc]
        simp only []
        have hstate : P ++ (l.drop off ::
            stripSuffix cfg rest2 (aritySum cfg (l.take (off + i)))) =
            (P ++ [l.drop off]) ++
              stripSuffix cfg rest2 (aritySum cfg (l.take (off + i))) := by
          simp
        have hlen1 : (P ++ [l.drop off]).length = P.length + 1 := by simp
        rw [hstate, ← hlen1]
        rw [hkids]
        simp only []
        rw [hlen1]
        -- the post-child state and the slicing step, by cases on the deeper levels
        cases rest2 with
        | nil =>
          -- no deeper level: nothing is sliced
          have hpost : postG cfg (P ++ [l.drop off]) [] (aritySum cfg (l.take (off + i)))
              (argsOf cfg c) = P ++ [l.drop off] := rfl
          rw [hpost]
          rw [if_neg (by simp)]
          have hfl2 : todo1 + wt ([] : List (List Char)) < f := by
            unfold wt at hf ⊢
            omega
          have havl2 : off + (i + 1) + todo1 ≤ l.length := by omega
          obtain ⟨ts, hrun2, hrow2⟩ := ih.2 todo1 (i + 1) off P l [] hcomp2 hfl2 havl2
          refine ⟨Tree.node c kids :: ts, ?_, ?_⟩
          · unfold stripSuffix at hrun2 ⊢
            rw [hrun2]
          · exact SpecRow.cons l [] (off + i) todo1 c (Tree.node c kids) ts hc hnode
              hrow2
        | cons l2 rest3 =>
          have hpost : postG cfg (P ++ [l.drop off]) (l2 :: rest3)
              (aritySum cfg (l.take (off + i))) (argsOf cfg c) =
              P ++ (l.drop off :: l2.drop (aritySum cfg (l.take (off + i))) ::
                stripSuffix cfg rest3
                  (aritySum cfg (l2.take
                    (aritySum cfg (l.take (off + i)) + argsOf cfg c)))) := by
            unfold postG
            simp
          rw [hpost]
          rw [if_pos (by
            simp only [List.length_append, List.length_cons, stripSuffix_length]
            omega)]
          have hupd : updLevel (P ++ (l.drop off ::
              l2.drop (aritySum cfg (l.take (off + i))) ::
              stripSuffix cfg rest3
                (aritySum cfg (l2.take
                  (aritySum cfg (l.take (off + i)) + argsOf cfg c)))))
              (P.length + 1) (argsOf cfg c) =
              P ++ (l.drop off ::
                stripSuffix cfg (l2 :: rest3) (aritySum cfg (l.take (off + i + 1)))) := by
            rw [updLevel_append, List.drop_drop, stripSuffix_cons,
              ← aritySum_take_succ cfg l (off + i) c hc]
          rw [hupd]
          have hfl2 : todo1 + wt (l2 :: rest3) < f := by omega
          have havl2 : off + (i + 1) + todo1 ≤ l.length := by omega
          obtain ⟨ts, hrun2, hrow2⟩ :=
            ih.2 todo1 (i + 1) off P l (l2 :: rest3) hcomp hfl2 havl2
          refine ⟨Tree.node c kids :: ts, ?_, ?_⟩
          · rw [show off + (i + 1) = off + i + 1 from rfl,
              show off + i + 1 + todo1 = off + i + (todo1 + 1) from by omega] at hrun2
            rw [hrun2]
          · exact SpecRow.cons l (l2 :: rest3) (off + i) todo1 c (Tree.node c kids) ts
              hc hnode hrow2

theorem wt_cons (l : List Char) (r : List (List Char)) :
    wt (l :: r) = l.length + 1 + wt r := rfl

theorem build_tree_cons (cfg : Config) (g0 : Char) (gr : List Char) :
    build_tree cfg (g0 :: gr) =
      match grabChildren cfg (wt (mkLevels cfg g0 (g0 :: gr))) g0 1
          (mkLevels cfg g0 (g0 :: gr)) with
      | .error e => .error e
      | .ok (kids, _) => .ok (Tree.node g0 kids) := rfl

/-- On a gene whose levels are complete, `build_tree` succeeds, the root is
the gene's first character, and the resulting tree satisfies the spec's
breadth-first arity-driven assignment relation. -/
theorem build_tree_complete (cfg : Config) (g0 : Char) (grest : List Char)
    (hcomp : completeB cfg (mkLevels cfg g0 (g0 :: grest)) = true) :
    ∃ kids,
      build_tree cfg (g0 :: grest) = .ok (Tree.node g0 kids) ∧
      SpecNode cfg (mkLevels cfg g0 (g0 :: grest)).tail g0 0 (Tree.node g0 kids) := by
  have hmk : mkLevels cfg g0 (g0 :: grest) =
      [g0] :: levelsLoop cfg (g0 :: grest) (g0 :: grest).length [g0] 0 := rfl
  have hcr : completeB cfg
      (levelsLoop cfg (g0 :: grest) (g0 :: grest).length [g0] 0) = true := by
    rw [hmk] at hcomp
    exact completeB_tail cfg [g0] _ hcomp
  have hfl : wt (levelsLoop cfg (g0 :: grest) (g0 :: grest).length [g0] 0) <
      wt (mkLevels cfg g0 (g0 :: grest)) := by
    rw [hmk, wt_cons]
    omega
  have hava : ∀ (l : List Char) rest2,
      levelsLoop cfg (g0 :: grest) (g0 :: grest).length [g0] 0 = l :: rest2 →
      0 + argsOf cfg g0 ≤ l.length := by
    intro l rest2 hr
    rw [hmk, hr] at hcomp
    obtain ⟨hl, -⟩ := completeB_pair cfg [g0] l rest2 hcomp
    have : aritySum cfg [g0] = argsOf cfg g0 := by simp [aritySum]
    omega
  obtain ⟨kids, hrun, hnode⟩ :=
    (grab_spec cfg (wt (mkLevels cfg g0 (g0 :: grest)))).1 g0 0 [[g0]]
      (levelsLoop cfg (g0 :: grest) (g0 :: grest).length [g0] 0) hcr hfl hava
  rw [show ([[g0]] : List (List Char)).length = 1 from rfl] at hrun
  rw [stripSuffix_zero] at hrun
  rw [List.singleton_append] at hrun
  refine ⟨kids, ?_, hnode⟩
  rw [build_tree_cons]
  rw [← hmk] at hrun
  rw [hrun]

/-- Claim C1: gene decoding follows the breadth-first arity-driven rule — on
a gene with complete levels, `build_tree` returns a tree whose root is
`gene[0]` and whose children assignment is exactly the specification relation
`SpecNode` (each node at level `k`, processed left to right, receives the
next `arity(node)` not-yet-assigned symbols of level `k+1`, in order); in
particular, decoding `"+ab"` with `+` of arity 2 yields root `+` with
children `a`, `b` in that order. -/
theorem claim_C1 :
    (∀ (cfg : Config) (g0 : Char) (grest : List Char),
      completeB cfg (mkLevels cfg g0 (g0 :: grest)) = true →
      ∃ kids,
        build_tree cfg (g0 :: grest) = .ok (Tree.node g0 kids) ∧
        SpecNode cfg (mkLevels cfg g0 (g0 :: grest)).tail g0 0
          (Tree.node g0 kids)) ∧
    build_tree cfgEx ['+', 'a', 'b'] =
      .ok (Tree.node '+' [Tree.node 'a' [], Tree.node 'b' []]) := by
  constructor
  · intro cfg g0 grest hcomp
    exact build_tree_complete cfg g0 grest hcomp
  · rfl

/-- Witness for C1 at the gene `"+ab"` under `cfgEx` (whose levels
`["+", "ab"]` are complete). -/
theorem claim_C1_witness :
    (∃ kids,
      build_tree cfgEx ['+', 'a', 'b'] = .ok (Tree.node '+' kids) ∧
      SpecNode cfgEx (mkLevels cfgEx '+' ['+', 'a', 'b']).tail '+' 0
        (Tree.node '+' kids)) ∧
    build_tree cfgEx ['+', 'a', 'b'] =
      .ok (Tree.node '+' [Tree.node 'a' [], Tree.node 'b' []]) :=
  ⟨claim_C1.1 cfgEx '+' ['a', 'b'] (by rfl), claim_C1.2⟩

/-- Counterexample to C10 as stated: the non-empty gene `"+"` (with `+` of
arity 2) does not decode to a tree — its second level is empty and
`grab_children` raises `IndexError`. -/
theorem claim_C10_counterexample :
    build_tree cfgEx ['+'] = .error .indexErr ∧ (['+'] : List Char) ≠ [] := by
  exact ⟨rfl, by decide⟩

/-- Claim C10 as amended: `build_tree` fails with `IndexError` on the empty
gene; whenever it returns a tree the gene is non-empty and the tree's root is
the gene's first character; and on every non-empty gene whose levels are
complete it does return such a tree. -/
theorem claim_C10 :
    (∀ cfg : Config, build_tree cfg [] = .error .indexErr) ∧
    (∀ (cfg : Config) (gene : List Char) (t : Tree),
      build_tree cfg gene = .ok t →
      ∃ g0 gr kids, gene = g0 :: gr ∧ t = Tree.node g0 kids) ∧
    (∀ (cfg : Config) (g0 : Char) (grest : List Char),
      completeB cfg (mkLevels cfg g0 (g0 :: grest)) = true →
      ∃ kids, build_tree cfg (g0 :: grest) = .ok (Tree.node g0 kids)) := by
  refine ⟨fun cfg => rfl, ?_, ?_⟩
  · intro cfg gene t h
    cases gene with
    | nil => exact absurd h (by simp [build_tree])
    | cons g0 gr =>
      rw [build_tree_cons] at h
      cases hg : grabChildren cfg (wt (mkLevels cfg g0 (g0 :: gr))) g0 1
          (mkLevels cfg g0 (g0 :: gr)) with
      | error e =>
        rw [hg] at h
        exact absurd h (by simp)
      | ok p =>
        rw [hg] at h
        obtain ⟨kids, lv⟩ := p
        simp only [Except.ok.injEq] at h
        exact ⟨g0, gr, kids, rfl, h.symm⟩
  · intro cfg g0 grest hcomp
    obtain ⟨kids, hb, -⟩ := build_tree_complete cfg g0 grest hcomp
    exact ⟨kids, hb⟩

/-- Witness for the amended C10: the empty gene fails, `"+ab"` decodes with
root `+`, and the complete gene `"+ab"` is decodable. -/
theorem claim_C10_witness :
    build_tree cfgEx [] = .error .indexErr ∧
    (∃ g0 gr kids, (['+', 'a', 'b'] : List Char) = g0 :: gr ∧
      Tree.node '+' [Tree.node 'a' [], Tree.node 'b' []] = Tree.node g0 kids) ∧
    (∃ kids, build_tree cfgEx ['+', 'a', 'b'] = .ok (Tree.node '+' kids)) :=
  ⟨claim_C10.1 cfgEx,
   claim_C10.2.1 cfgEx ['+', 'a', 'b']
     (Tree.node '+' [Tree.node 'a' [], Tree.node 'b' []]) rfl,
   claim_C10.2.2 cfgEx '+' ['a', 'b'] (by rfl)⟩

end GEP
